import Mathlib

set_option maxRecDepth 8000

/-!
Shallow embedding of the solv-a-line Sudoku solver (Rust).

Source files embedded:
  * src/sudoku_board.rs  — SudokuBoard and its accessors/predicates
  * src/sudoku_solver.rs — SudokuSolver and the iterative backtracking solve()
  * src/lib.rs           — the earlier all-in-one iteration of the same two
    components (its board methods are textually identical to sudoku_board.rs,
    so the embedding reuses the same board operations; its SudokuSolver is
    embedded separately under the Lib namespace)

Modelling conventions:
  * Vec<Vec<u8>> becomes List (List Nat); u8 values never overflow here
    because the program only stores 0..=9 and candidate values 1..=9.
  * Rust panics (bad dimensions, bad values, invalid puzzle, out-of-range
    accessor indexes, backtrack underflow of the usize cursor) become
    Except / explicit outcome constructors.
  * f32 percent_solved is modelled on ℚ with the same formula; no claim
    depends on f32 rounding, only on the field being present and unchanged.
  * The RefCell<Option<SudokuBoard>> cache becomes an Option field, with
    solve returning the updated solver alongside its result.
  * HashSet / itertools-unique collections are used by the source only for
    membership tests, so they are modelled by lists plus List.contains
    (respectively List.dedup, which keeps one representative of each value).
  * The while-loop of solve() is modelled with explicit fuel; running out of
    fuel yields Option.none, which is an artifact of the embedding and not a
    program behaviour.
-/

inductive SolverError where
  | invalidDimensions
  | invalidValue
  | invalidPuzzle
  | invalidIndex
  deriving DecidableEq, Repr

structure SudokuBoard where
  configuration : List (List Nat)
  deriving DecidableEq, Repr

namespace SudokuBoard

/-- Reading configuration[r][c]; in-bounds wherever the source reads it. -/
def cell (b : SudokuBoard) (r c : Nat) : Nat :=
  (b.configuration.getD r []).getD c 0

/-- Writing configuration[r][c] = v; in-bounds wherever the source writes it. -/
def setCell (b : SudokuBoard) (r c v : Nat) : SudokuBoard :=
  ⟨b.configuration.set r ((b.configuration.getD r []).set c v)⟩

/-- SudokuBoard::new from sudoku_board.rs: the 9x9 dimension check, then the
value-range check (u8, so only the upper bound 9 is checked), then the clone. -/
def new (sudoku_puzzle : List (List Nat)) : Except SolverError SudokuBoard :=
  if sudoku_puzzle.length != 9 || sudoku_puzzle.any (fun row => row.length != 9) then
    .error .invalidDimensions
  else if sudoku_puzzle.any (fun row => row.any (fun value => 9 < value)) then
    .error .invalidValue
  else
    .ok ⟨sudoku_puzzle⟩

/-- SudokuBoard::copy — clone of the configuration. -/
def copy (other : SudokuBoard) : SudokuBoard :=
  ⟨other.configuration⟩

/-- SudokuBoard::get_unsolved_spaces — the double loop over rows 0..=8 and
columns 0..=8 pushing the coordinates whose cell is 0. -/
def get_unsolved_spaces (b : SudokuBoard) : List (Nat × Nat) :=
  ((List.range 9).map (fun row =>
    ((List.range 9).filter (fun column => b.cell row column == 0)).map
      (fun column => (row, column)))).flatten

/-- SudokuBoard::get_row — the loop pushing configuration[row_index][c] for
c in 0..=8. -/
def get_row (b : SudokuBoard) (row_index : Nat) : List Nat :=
  (List.range 9).map (fun column_index => b.cell row_index column_index)

/-- SudokuBoard::get_column — the loop pushing configuration[r][column_index]
for r in 0..=8. -/
def get_column (b : SudokuBoard) (column_index : Nat) : List Nat :=
  (List.range 9).map (fun row_index => b.cell row_index column_index)

/-- The match in SudokuBoard::get_nonet assigning starting_row/starting_column;
the default arm is the panic arm, modelled by the harmless sentinel (9,9)
(get_nonetE below reports the error the way the source panics). -/
def nonetStart (nonet_index : Nat) : Nat × Nat :=
  match nonet_index with
  | 0 => (0, 0) | 1 => (0, 3) | 2 => (0, 6)
  | 3 => (3, 0) | 4 => (3, 3) | 5 => (3, 6)
  | 6 => (6, 0) | 7 => (6, 3) | 8 => (6, 6)
  | _ => (9, 9)

/-- SudokuBoard::get_nonet — the 3x3 double loop from the starting corner. -/
def get_nonet (b : SudokuBoard) (nonet_index : Nat) : List Nat :=
  ((List.range 3).map (fun dr =>
    (List.range 3).map (fun dc =>
      b.cell ((nonetStart nonet_index).1 + dr) ((nonetStart nonet_index).2 + dc)))).flatten

/-- The `iter().filter(|&&value| value != 0)` step shared by the three
all_spaces_valid loops and by the solver's forbidden-set construction. -/
def nonzeroValues (l : List Nat) : List Nat :=
  l.filter (fun value => value != 0)

/-- The `unique().collect_vec().len()` count: number of distinct values. -/
def uniqueCount (l : List Nat) : Nat :=
  l.dedup.length

/-- SudokuBoard::all_spaces_valid — for each row, column and nonet the count
of distinct nonzero values must equal the count of nonzero values. -/
def all_spaces_valid (b : SudokuBoard) : Bool :=
  ((List.range 9).all (fun row_index =>
      uniqueCount (nonzeroValues (b.get_row row_index)) ==
        (nonzeroValues (b.get_row row_index)).length)) &&
  ((List.range 9).all (fun column_index =>
      uniqueCount (nonzeroValues (b.get_column column_index)) ==
        (nonzeroValues (b.get_column column_index)).length)) &&
  ((List.range 9).all (fun nonet_index =>
      uniqueCount (nonzeroValues (b.get_nonet nonet_index)) ==
        (nonzeroValues (b.get_nonet nonet_index)).length))

/-- SudokuBoard::all_spaces_solved — no cell of the configuration is 0. -/
def all_spaces_solved (b : SudokuBoard) : Bool :=
  !(b.configuration.any (fun row => row.any (fun value => value == 0)))

/-- get_row with its failure behaviour: on a 9x9 board the source panics
(index out of bounds on configuration[row_index]) exactly when the index is
outside 0..=8; the spec taxonomy calls this InvalidIndex. -/
def get_rowE (b : SudokuBoard) (row_index : Nat) : Except SolverError (List Nat) :=
  if row_index < b.configuration.length then .ok (b.get_row row_index)
  else .error .invalidIndex

/-- get_column with its failure behaviour: the first read
configuration[0][column_index] panics exactly when the index is outside the
first row, i.e. outside 0..=8 on a 9x9 board. -/
def get_columnE (b : SudokuBoard) (column_index : Nat) : Except SolverError (List Nat) :=
  if column_index < (b.configuration.getD 0 []).length then .ok (b.get_column column_index)
  else .error .invalidIndex

/-- get_nonet with its failure behaviour: the explicit panic arm of the match
fires exactly for nonet_index outside 0..=8. -/
def get_nonetE (b : SudokuBoard) (nonet_index : Nat) : Except SolverError (List Nat) :=
  if nonet_index ≤ 8 then .ok (b.get_nonet nonet_index)
  else .error .invalidIndex

/-- The 9x9 shape invariant that SudokuBoard::new enforces. -/
def Is9x9 (b : SudokuBoard) : Prop :=
  b.configuration.length = 9 ∧ ∀ row ∈ b.configuration, row.length = 9

instance : DecidablePred Is9x9 := fun b => by
  unfold Is9x9; infer_instance

/-- The value-range invariant that SudokuBoard::new enforces. -/
def ValuesLe9 (b : SudokuBoard) : Prop :=
  ∀ row ∈ b.configuration, ∀ v ∈ row, v ≤ 9

instance : DecidablePred ValuesLe9 := fun b => by
  unfold ValuesLe9; infer_instance

end SudokuBoard

open SudokuBoard

/-- The `vec![1, 2, 3, 4, 5, 6, 7, 8, 9]` candidate list of solve(). -/
def allValueCandidates : List Nat := [1, 2, 3, 4, 5, 6, 7, 8, 9]

/-- The nonet_index formula of solve():
3 * ((9r + c) / 27) + ((9r + c) / 3 % 3). -/
def nonetIndexOf (row_index column_index : Nat) : Nat :=
  3 * ((9 * row_index + column_index) / 27) + ((9 * row_index + column_index) / 3 % 3)

/-- The row/column/nonet part of the forbidden set built in the loop body of
solve(): the chained nonzero values of the current row, column and nonet. -/
def contextInvalid (b : SudokuBoard) (row_index column_index : Nat) : List Nat :=
  nonzeroValues (b.get_row row_index) ++ nonzeroValues (b.get_column column_index) ++
    nonzeroValues (b.get_nonet (nonetIndexOf row_index column_index))

/-- The mutable state of the while-loop of solve(): the working board, the
attempted_values HashMap (modelled as a total function with the or_default
semantics: absent keys read as []), and the cursor unsolved_spaces_index. -/
structure SearchState where
  board : SudokuBoard
  attempted : Nat × Nat → List Nat
  idx : Nat

inductive StepResult where
  | next (st : SearchState)
  | underflow

/-- The tuple unsolved_spaces[unsolved_spaces_index] read at the top of the
loop body (row_index, column_index). -/
def stepSpace (us : List (Nat × Nat)) (st : SearchState) : Nat × Nat :=
  us.getD st.idx (0, 0)

/-- The working board after `solved_board.configuration[(r, c)] = 0` (set
back to 0 in the case this was a back-tracked space). -/
def stepZeroed (us : List (Nat × Nat)) (st : SearchState) : SudokuBoard :=
  st.board.setCell (stepSpace us st).1 (stepSpace us st).2 0

/-- The invalid_value_candidates set of sudoku_solver.rs: previously
attempted values chained with the nonzero values of the current row, column
and nonet (a HashSet in the source, used only for membership). -/
def stepInvalid (us : List (Nat × Nat)) (st : SearchState) : List Nat :=
  st.attempted (stepSpace us st) ++
    contextInvalid (stepZeroed us st) (stepSpace us st).1 (stepSpace us st).2

/-- The valid_value_candidates iterator of sudoku_solver.rs, collected. -/
def stepValid (us : List (Nat × Nat)) (st : SearchState) : List Nat :=
  allValueCandidates.filter (fun value => !((stepInvalid us st).contains value))

/-- One iteration of the while-loop body of SudokuSolver::solve
(sudoku_solver.rs). The first candidate (iterator next(), i.e. head) is
placed and recorded and the cursor advances; with no candidate the attempted
record is removed and the cursor decrements, which at 0 is the usize
underflow panic. Timing instrumentation is side-effect-free and omitted. -/
def solveStep (us : List (Nat × Nat)) (st : SearchState) : StepResult :=
  match (stepValid us st).head? with
  | some first_value =>
      .next { board := (stepZeroed us st).setCell (stepSpace us st).1
                (stepSpace us st).2 first_value,
              attempted := fun p => if p = stepSpace us st
                then st.attempted (stepSpace us st) ++ [first_value]
                else st.attempted p,
              idx := st.idx + 1 }
  | none =>
      match st.idx with
      | 0 => .underflow
      | i + 1 =>
          .next { board := stepZeroed us st,
                  attempted := fun p => if p = stepSpace us st then []
                    else st.attempted p,
                  idx := i }

inductive SolveOutcome where
  | solved (b : SudokuBoard)
  | underflow
  | indexOutOfBounds
  deriving DecidableEq, Repr

/-- The while-loop of SudokuSolver::solve: while unsolved_spaces_index is
below unsolved_spaces.len(), run the body; fuel exhaustion returns none
(an embedding artifact, not a program behaviour). -/
def solveLoop (us : List (Nat × Nat)) : Nat → SearchState → Option SolveOutcome
  | fuel, st =>
    if st.idx < us.length then
      match fuel with
      | 0 => none
      | fuel' + 1 =>
          match solveStep us st with
          | .underflow => some .underflow
          | .next st' => solveLoop us fuel' st'
    else
      some (.solved st.board)

structure SudokuSolver where
  board : SudokuBoard
  unsolved_spaces : List (Nat × Nat)
  percent_solved : ℚ
  solved_board : Option SudokuBoard
  deriving DecidableEq, Repr

/-- SudokuSolver::new (sudoku_solver.rs): reject boards failing
all_spaces_valid, then capture a copy of the board, the unsolved spaces, the
percentage and the empty cache. -/
def SudokuSolver.new (sudoku_board : SudokuBoard) : Except SolverError SudokuSolver :=
  if !sudoku_board.all_spaces_valid then
    .error .invalidPuzzle
  else
    let unsolved_spaces := sudoku_board.get_unsolved_spaces
    .ok { board := SudokuBoard.copy sudoku_board,
          unsolved_spaces := unsolved_spaces,
          percent_solved := (1 - (unsolved_spaces.length : ℚ) / (9 * 9)) * 100,
          solved_board := none }

/-- The initial loop state of SudokuSolver::solve: a working copy of the
solver's board, an empty attempted_values map, cursor 0. -/
def initialState (board : SudokuBoard) : SearchState :=
  { board := SudokuBoard.copy board, attempted := fun _ => [], idx := 0 }

/-- SudokuSolver::solve (sudoku_solver.rs): return a copy of the cached board
when present, otherwise run the backtracking loop on a working copy, store
the result in the cache and return a copy of it. The returned solver is the
post-call state of &self (the RefCell write made explicit). -/
def SudokuSolver.solve (s : SudokuSolver) (fuel : Nat) :
    Option (SolveOutcome × SudokuSolver) :=
  match s.solved_board with
  | some cached => some (.solved (SudokuBoard.copy cached), s)
  | none =>
      match solveLoop s.unsolved_spaces fuel (initialState s.board) with
      | none => none
      | some (.solved b) =>
          some (.solved (SudokuBoard.copy b), { s with solved_board := some b })
      | some out => some (out, s)

namespace Lib

/-!
The lib.rs iteration. Its SudokuBoard (field board_configuration) and all
its board methods are textually identical to the ones of sudoku_board.rs
except for the field name, so the embedding reuses the SudokuBoard type and
its operations above. lib.rs's SudokuBoard::new performs no validation at
all; the only lib.rs constructor with checks is SudokuSolver::new below.
-/

structure SudokuSolver where
  sudoku_puzzle : SudokuBoard
  unsolved_spaces : List (Nat × Nat)
  percent_solved : ℚ
  solved_board : Option SudokuBoard
  deriving DecidableEq, Repr

/-- lib.rs SudokuSolver::new: takes the raw grid, rejects non-9x9 input, then
builds the (unvalidated) board and rejects it if all_spaces_valid fails.
Note: unlike sudoku_board.rs's SudokuBoard::new, there is no cell-value range
check here. -/
def SudokuSolver.new (sudoku_puzzle : List (List Nat)) : Except SolverError SudokuSolver :=
  if sudoku_puzzle.length != 9 || sudoku_puzzle.any (fun row => row.length != 9) then
    .error .invalidDimensions
  else
    let board : SudokuBoard := ⟨sudoku_puzzle⟩
    if !board.all_spaces_valid then
      .error .invalidPuzzle
    else
      let unsolved_spaces := board.get_unsolved_spaces
      .ok { sudoku_puzzle := board,
            unsolved_spaces := unsolved_spaces,
            percent_solved := (1 - (unsolved_spaces.length : ℚ) / (9 * 9)) * 100,
            solved_board := none }

/-- The invalid_value_candidates Vec of lib.rs: the same chain as
sudoku_solver.rs, deduplicated with itertools unique. -/
def libInvalid (us : List (Nat × Nat)) (st : SearchState) : List Nat :=
  (st.attempted (stepSpace us st) ++
    contextInvalid (stepZeroed us st) (stepSpace us st).1 (stepSpace us st).2).dedup

/-- The valid_value_candidates Vec of lib.rs. -/
def libValid (us : List (Nat × Nat)) (st : SearchState) : List Nat :=
  allValueCandidates.filter (fun value => !((libInvalid us st).contains value))

/-- One iteration of the while-loop body of lib.rs's SudokuSolver::solve.
It differs from solveStep only in bookkeeping: the forbidden set is a
deduplicated Vec (membership unchanged) and the first valid candidate is
taken as element 0 of the collected Vec after a length check, instead of via
an iterator. -/
def libStep (us : List (Nat × Nat)) (st : SearchState) : StepResult :=
  if 0 < (libValid us st).length then
    .next { board := (stepZeroed us st).setCell (stepSpace us st).1
              (stepSpace us st).2 ((libValid us st).getD 0 0),
            attempted := fun p => if p = stepSpace us st
              then st.attempted (stepSpace us st) ++ [(libValid us st).getD 0 0]
              else st.attempted p,
            idx := st.idx + 1 }
  else
    match st.idx with
    | 0 => .underflow
    | i + 1 =>
        .next { board := stepZeroed us st,
                attempted := fun p => if p = stepSpace us st then []
                  else st.attempted p,
                idx := i }

/-- The while-loop of lib.rs's solve: while the working board has an
unsolved space, run the body; indexing unsolved_spaces out of range would
panic, reported as indexOutOfBounds. -/
def libLoop (us : List (Nat × Nat)) : Nat → SearchState → Option SolveOutcome
  | fuel, st =>
    if st.board.all_spaces_solved then
      some (.solved st.board)
    else
      match fuel with
      | 0 => none
      | fuel' + 1 =>
          if st.idx < us.length then
            match libStep us st with
            | .underflow => some .underflow
            | .next st' => libLoop us fuel' st'
          else
            some .indexOutOfBounds

/-- lib.rs SudokuSolver::solve: cache hit returns a copy of the cached board;
otherwise the loop runs on a working copy of sudoku_puzzle and the result is
cached and returned by copy. -/
def SudokuSolver.solve (s : SudokuSolver) (fuel : Nat) :
    Option (SolveOutcome × SudokuSolver) :=
  match s.solved_board with
  | some cached => some (.solved (SudokuBoard.copy cached), s)
  | none =>
      match libLoop s.unsolved_spaces fuel (initialState s.sudoku_puzzle) with
      | none => none
      | some (.solved b) =>
          some (.solved (SudokuBoard.copy b), { s with solved_board := some b })
      | some out => some (out, s)

end Lib

/-- Strict row-major order on coordinates: row ascending, then column
ascending, as produced by get_unsolved_spaces. -/
def rowMajorLt (p q : Nat × Nat) : Prop :=
  p.1 < q.1 ∨ (p.1 = q.1 ∧ p.2 < q.2)

/-- The number of nonzero (filled) cells of a board. -/
def filledCount (b : SudokuBoard) : Nat :=
  (b.configuration.map (fun row => (nonzeroValues row).length)).sum

/-! ## Concrete fixtures (taken from the repository's test suite) -/

/-- The fully solved 9x9 grid used across the repository's tests. -/
def fullCfg : List (List Nat) :=
  [[6,7,3,8,9,4,5,1,2],
   [9,1,2,7,3,5,4,8,6],
   [8,4,5,6,1,2,9,7,3],
   [7,9,8,2,6,1,3,5,4],
   [5,2,6,4,7,3,8,9,1],
   [1,3,4,5,8,9,2,6,7],
   [4,6,9,1,2,8,7,3,5],
   [2,8,7,3,5,6,1,4,9],
   [3,5,1,9,4,7,6,2,8]]

def fullBoard : SudokuBoard := ⟨fullCfg⟩

/-- The partially blank "easy" grid of the solve_easy tests. -/
def easyCfg : List (List Nat) :=
  [[0,7,3,8,9,4,5,1,2],
   [9,1,2,7,3,5,4,8,6],
   [8,4,5,0,0,2,9,7,3],
   [7,9,8,2,6,1,3,5,4],
   [5,2,6,4,7,3,8,9,1],
   [1,3,4,5,8,9,2,6,7],
   [4,6,9,0,2,8,7,3,5],
   [2,8,7,3,5,6,1,4,9],
   [3,5,1,9,4,7,6,2,0]]

def easyBoard : SudokuBoard := ⟨easyCfg⟩

/-- An 8-row grid (the constructor_works_invalid_board_invalid_rows fixture). -/
def cfg8rows : List (List Nat) :=
  [[0,7,3,8,9,4,5,1,2],
   [9,1,2,7,3,5,4,8,6],
   [8,4,5,6,1,2,9,7,3],
   [7,9,8,2,6,1,3,5,4],
   [5,2,6,4,7,3,8,9,1],
   [1,3,4,5,8,9,2,6,7],
   [4,6,9,0,2,8,7,3,5],
   [2,8,7,3,5,6,1,4,9]]

/-- A 9-row grid whose rows have length 8 (invalid_columns fixture). -/
def cfgShortRow : List (List Nat) :=
  [[0,7,3,8,9,4,5,1],
   [9,1,2,7,3,5,4,8],
   [8,4,5,6,1,2,9,7],
   [7,9,8,2,6,1,3,5],
   [5,2,6,4,7,3,8,9],
   [1,3,4,5,8,9,2,6],
   [4,6,9,0,2,8,7,3],
   [2,8,7,3,5,6,1,4],
   [3,5,1,9,4,7,6,2]]

/-- The invalid_board_invalid_value fixture: one cell holds 10 and no
row/column/nonet holds a duplicate nonzero value. -/
def cfgVal10 : List (List Nat) :=
  [[0,0,0,0,0,0,0,0,0],
   [0,0,2,0,0,5,0,4,0],
   [1,0,8,0,4,0,0,0,0],
   [0,0,0,0,0,0,4,0,3],
   [0,0,6,0,5,0,0,0,10],
   [0,0,0,0,2,0,0,0,6],
   [3,0,1,0,0,0,0,8,0],
   [2,0,7,0,0,0,6,0,0],
   [0,0,0,0,0,6,1,3,9]]

/-- A 9x9 grid with two 5s in row 0 (a constraint violation, values in range). -/
def cfgTwoFives : List (List Nat) :=
  [[5,5,0,0,0,0,0,0,0],
   [0,0,0,0,0,0,0,0,0],
   [0,0,0,0,0,0,0,0,0],
   [0,0,0,0,0,0,0,0,0],
   [0,0,0,0,0,0,0,0,0],
   [0,0,0,0,0,0,0,0,0],
   [0,0,0,0,0,0,0,0,0],
   [0,0,0,0,0,0,0,0,0],
   [0,0,0,0,0,0,0,0,0]]

/-- The solver built by SudokuSolver::new from the fully solved fixture. -/
def fullSolver : SudokuSolver :=
  { board := fullBoard,
    unsolved_spaces := fullBoard.get_unsolved_spaces,
    percent_solved := (1 - ((fullBoard.get_unsolved_spaces).length : ℚ) / (9 * 9)) * 100,
    solved_board := none }

/-- fullSolver after its first solve() call populated the cache. -/
def fullSolverCached : SudokuSolver :=
  { fullSolver with solved_board := some fullBoard }

/-- The coordinate at position j of the unsolved-space list (the source
indexes with unsolved_spaces[unsolved_spaces_index], always in bounds). -/
def usAt (us : List (Nat × Nat)) (j : Nat) : Nat × Nat :=
  us.getD j (0, 0)

/-- The structural invariant of the while-loop of solve(), relative to the
starting board B0 and its unsolved-space list us: the cursor stays in
[0, len]; the working board stays 9x9 with values in [0,9] and passes
all_spaces_valid; spaces before the cursor hold nonzero placements; spaces
strictly after the cursor are 0 (the space under the cursor may hold a stale
value from backtracking, except when it is the last space, which is only
ever reached going forward); cells outside us never change. -/
def LoopInv (B0 : SudokuBoard) (us : List (Nat × Nat)) (st : SearchState) : Prop :=
  st.idx ≤ us.length ∧
  st.board.Is9x9 ∧
  st.board.ValuesLe9 ∧
  st.board.all_spaces_valid = true ∧
  (∀ j, j < st.idx → st.board.cell (usAt us j).1 (usAt us j).2 ≠ 0) ∧
  (∀ j, st.idx < j → j < us.length →
    st.board.cell (usAt us j).1 (usAt us j).2 = 0) ∧
  (st.idx + 1 = us.length →
    st.board.cell (usAt us st.idx).1 (usAt us st.idx).2 = 0) ∧
  (∀ r c, r < 9 → c < 9 → (r, c) ∉ us → st.board.cell r c = B0.cell r c)

/-- The solver built by lib.rs's SudokuSolver::new from the solved fixture. -/
def fullLibSolver : Lib.SudokuSolver :=
  { sudoku_puzzle := fullBoard,
    unsolved_spaces := fullBoard.get_unsolved_spaces,
    percent_solved := (1 - ((fullBoard.get_unsolved_spaces).length : ℚ) / (9 * 9)) * 100,
    solved_board := none }

/-! ## Definitions for the completeness and termination analysis of solve() -/

/-- The working board with every space from position j on cleared: the
context in which the level-j decision of the backtracking search is made
(cells before j hold their placements, cells from j on are blank). -/
def levelBoard (us : List (Nat × Nat)) (st : SearchState) (j : Nat) : SudokuBoard :=
  (us.drop j).foldl (fun acc p => acc.setCell p.1 p.2 0) st.board

/-- Value v is placeable at space j in the level-j context: it does not
collide with the row, column or nonet there. -/
def ContextValidAt (us : List (Nat × Nat)) (st : SearchState) (j : Nat) (v : Nat) : Prop :=
  v ∉ contextInvalid (levelBoard us st j) (usAt us j).1 (usAt us j).2

/-- The attempted-values record at space j is sound and downward closed: it
holds placeable values of [1,9], and with any value it holds every smaller
placeable value — the record is exactly the first few placeable values in
ascending order, which is how the candidate scan of solve() fills it. -/
def AttemptedOK (us : List (Nat × Nat)) (st : SearchState) (j : Nat) : Prop :=
  (∀ v ∈ st.attempted (usAt us j), 1 ≤ v ∧ v ≤ 9 ∧ ContextValidAt us st j v) ∧
  (∀ v ∈ st.attempted (usAt us j), ∀ u, 1 ≤ u → u < v → ContextValidAt us st j u →
    u ∈ st.attempted (usAt us j))

/-- Below the cursor, the value placed on the board at space j is the largest
value recorded as attempted there. -/
def PlacedMax (us : List (Nat × Nat)) (st : SearchState) (j : Nat) : Prop :=
  st.board.cell (usAt us j).1 (usAt us j).2 ∈ st.attempted (usAt us j) ∧
  (∀ u ∈ st.attempted (usAt us j), u ≤ st.board.cell (usAt us j).1 (usAt us j).2)

/-- The full bookkeeping invariant of the backtracking loop. -/
def SearchInv (B0 : SudokuBoard) (us : List (Nat × Nat)) (st : SearchState) : Prop :=
  LoopInv B0 us st ∧
  (∀ j, j ≤ st.idx → j < us.length → AttemptedOK us st j) ∧
  (∀ j, j < st.idx → PlacedMax us st j) ∧
  (∀ j, st.idx < j → j < us.length → st.attempted (usAt us j) = [])

/-- W is a solution of the puzzle B0: a fully solved valid 9x9 board that
agrees with every nonzero (clue) cell of B0. -/
def ExtendsClues (B0 W : SudokuBoard) : Prop :=
  W.Is9x9 ∧ W.ValuesLe9 ∧ W.all_spaces_valid = true ∧ W.all_spaces_solved = true ∧
  (∀ r c, r < 9 → c < 9 → B0.cell r c ≠ 0 → W.cell r c = B0.cell r c)

/-- The solution W has not been passed by the search: either some placed
value is strictly below W's value at the first space where they differ, or
the placements agree with W so far and every value already rejected at the
cursor is below W's value there. -/
def Dominates (W : SudokuBoard) (us : List (Nat × Nat)) (st : SearchState) : Prop :=
  (∃ j, j < st.idx ∧
    (∀ k, k < j → W.cell (usAt us k).1 (usAt us k).2 =
      st.board.cell (usAt us k).1 (usAt us k).2) ∧
    st.board.cell (usAt us j).1 (usAt us j).2 <
      W.cell (usAt us j).1 (usAt us j).2) ∨
  ((∀ k, k < st.idx → W.cell (usAt us k).1 (usAt us k).2 =
      st.board.cell (usAt us k).1 (usAt us k).2) ∧
    (st.idx < us.length → ∀ u ∈ st.attempted (usAt us st.idx),
      u < W.cell (usAt us st.idx).1 (usAt us st.idx).2))

/-- The whole invariant carried through the loop for claims C4 and C5. -/
def FullInv (B0 W : SudokuBoard) (us : List (Nat × Nat)) (st : SearchState) : Prop :=
  SearchInv B0 us st ∧ Dominates W us st

/-- Largest attempted value (0 for the empty record). -/
def maxAtt (l : List Nat) : Nat :=
  l.foldr max 0

/-- Position j of the progress vector of the search: the placed value below
the cursor, the largest rejected value at the cursor, the sentinel 10 above
it. This vector increases lexicographically at every loop iteration. -/
def gammaAt (us : List (Nat × Nat)) (st : SearchState) (j : Nat) : Nat :=
  if j < st.idx then st.board.cell (usAt us j).1 (usAt us j).2
  else if j = st.idx then maxAtt (st.attempted (usAt us j))
  else 10

/-- Base-11 value of the first n entries of a position function. -/
def vecVal (n : Nat) (f : Nat → Nat) : Nat :=
  (List.range n).foldl (fun acc j => acc * 11 + f j) 0

/-- The numeric progress measure of a search state. -/
def gammaVal (us : List (Nat × Nat)) (st : SearchState) : Nat :=
  vecVal us.length (gammaAt us st)

/-- Loop-head states reachable from a given state by iterating the body of
solve() while the guard holds. -/
inductive Reaches (us : List (Nat × Nat)) (start : SearchState) : SearchState → Prop where
  | refl : Reaches us start start
  | step (st2 st3 : SearchState) : Reaches us start st2 → st2.idx < us.length →
      solveStep us st2 = .next st3 → Reaches us start st3

/-! ## Basic facts about cells, updates and accessors -/

namespace SudokuBoard

theorem cell_setCell_ne (b : SudokuBoard) (r c v r' c' : Nat) (h : (r', c') ≠ (r, c)) :
    (b.setCell r c v).cell r' c' = b.cell r' c' := by
  unfold cell setCell
  rcases eq_or_ne r r' with rfl | hrne
  · have hcne : c ≠ c' := by
      intro hcc
      exact h (by simp [hcc.symm])
    by_cases hlt : r < b.configuration.length
    · simp [List.getD_eq_getElem?_getD, List.getElem?_set, hlt, hcne,
        List.getElem?_eq_getElem hlt]
    · simp [List.getD_eq_getElem?_getD, List.getElem?_set, hlt,
        List.getElem?_eq_none (Nat.le_of_not_lt hlt)]
  · simp [List.getD_eq_getElem?_getD, List.getElem?_set, hrne]

theorem rowLen (b : SudokuBoard) (h9 : b.Is9x9) (r : Nat) (hr : r < 9) :
    (b.configuration.getD r []).length = 9 := by
  obtain ⟨hlen, hrows⟩ := h9
  have hr' : r < b.configuration.length := by omega
  rw [List.getD_eq_getElem?_getD, List.getElem?_eq_getElem hr']
  exact hrows _ (List.getElem_mem hr')

theorem cell_setCell_self (b : SudokuBoard) (h9 : b.Is9x9) (r c v : Nat)
    (hr : r < 9) (hc : c < 9) : (b.setCell r c v).cell r c = v := by
  have hr' : r < b.configuration.length := by rw [h9.1]; exact hr
  have hgetD : b.configuration[r]?.getD [] = b.configuration.getD r [] :=
    (List.getD_eq_getElem?_getD _ _ _).symm
  have hc' : c < (b.configuration[r]?.getD []).length := by
    rw [hgetD, rowLen b h9 r hr]; exact hc
  unfold cell setCell
  simp only [List.getD_eq_getElem?_getD]
  rw [List.getElem?_set_self hr', Option.getD_some, List.getElem?_set_self hc',
    Option.getD_some]

theorem is9x9_setCell (b : SudokuBoard) (h9 : b.Is9x9) (r c v : Nat) (hr : r < 9) :
    (b.setCell r c v).Is9x9 := by
  have hlen9 := rowLen b h9 r hr
  obtain ⟨hlen, hrows⟩ := h9
  refine ⟨by simpa [setCell] using hlen, ?_⟩
  intro row hrow
  rcases List.mem_or_eq_of_mem_set hrow with hmem | rfl
  · exact hrows _ hmem
  · rw [List.length_set]
    exact hlen9

end SudokuBoard

namespace SudokuBoard

theorem length_get_row (b : SudokuBoard) (r : Nat) : (b.get_row r).length = 9 := by
  simp [get_row]

theorem length_get_column (b : SudokuBoard) (c : Nat) : (b.get_column c).length = 9 := by
  simp [get_column]

theorem get_nonet_eq_map (b : SudokuBoard) (n : Nat) :
    b.get_nonet n = (List.range 9).map
      (fun k => b.cell ((nonetStart n).1 + k / 3) ((nonetStart n).2 + k % 3)) := rfl

theorem length_get_nonet (b : SudokuBoard) (n : Nat) : (b.get_nonet n).length = 9 := by
  rw [get_nonet_eq_map]; simp

theorem getElem_get_row (b : SudokuBoard) (r c : Nat) (h : c < (b.get_row r).length) :
    (b.get_row r)[c] = b.cell r c := by
  simp [get_row]

theorem getElem_get_column (b : SudokuBoard) (r c : Nat) (h : r < (b.get_column c).length) :
    (b.get_column c)[r] = b.cell r c := by
  simp [get_column]

theorem getElem_get_nonet (b : SudokuBoard) (n p : Nat) (h : p < (b.get_nonet n).length) :
    (b.get_nonet n)[p] = b.cell ((nonetStart n).1 + p / 3) ((nonetStart n).2 + p % 3) := by
  have h9 : p < 9 := by rw [length_get_nonet] at h; exact h
  simp only [get_nonet_eq_map]
  simp

theorem get_row_setCell_ne (b : SudokuBoard) (r c v r' : Nat) (h : r' ≠ r) :
    (b.setCell r c v).get_row r' = b.get_row r' := by
  unfold get_row
  apply List.map_congr_left
  intro x _
  exact cell_setCell_ne b r c v r' x (by simp [h])

theorem get_row_setCell_self (b : SudokuBoard) (h9 : b.Is9x9) (r c v : Nat)
    (hr : r < 9) (hc : c < 9) :
    (b.setCell r c v).get_row r = (b.get_row r).set c v := by
  apply List.ext_getElem
  · simp [length_get_row]
  · intro i h1 h2
    have hi : i < 9 := by rw [length_get_row] at h1; exact h1
    rw [getElem_get_row, List.getElem_set]
    rcases eq_or_ne c i with rfl | hne
    · simp [cell_setCell_self b h9 r c v hr hc]
    · rw [if_neg hne, getElem_get_row,
        cell_setCell_ne b r c v r i
          (by intro hcc; exact hne (congrArg Prod.snd hcc).symm)]

theorem get_column_setCell_ne (b : SudokuBoard) (r c v c' : Nat) (h : c' ≠ c) :
    (b.setCell r c v).get_column c' = b.get_column c' := by
  unfold get_column
  apply List.map_congr_left
  intro x _
  exact cell_setCell_ne b r c v x c' (by simp [h])

theorem get_column_setCell_self (b : SudokuBoard) (h9 : b.Is9x9) (r c v : Nat)
    (hr : r < 9) (hc : c < 9) :
    (b.setCell r c v).get_column c = (b.get_column c).set r v := by
  apply List.ext_getElem
  · simp [length_get_column]
  · intro i h1 h2
    have hi : i < 9 := by rw [length_get_column] at h1; exact h1
    rw [getElem_get_column, List.getElem_set]
    rcases eq_or_ne r i with rfl | hne
    · simp [cell_setCell_self b h9 r c v hr hc]
    · rw [if_neg hne, getElem_get_column,
        cell_setCell_ne b r c v i c
          (by intro hcc; exact hne (congrArg Prod.fst hcc).symm)]

theorem nonetIndexOf_lt : ∀ r < 9, ∀ c < 9, nonetIndexOf r c < 9 := by decide

theorem nonetPos_facts : ∀ r < 9, ∀ c < 9,
    (nonetStart (nonetIndexOf r c)).1 + (3 * (r % 3) + c % 3) / 3 = r ∧
    (nonetStart (nonetIndexOf r c)).2 + (3 * (r % 3) + c % 3) % 3 = c ∧
    3 * (r % 3) + c % 3 < 9 := by decide

set_option synthInstance.maxSize 512 in
theorem nonet_coord_mp : ∀ r < 9, ∀ c < 9, ∀ k < 9, ∀ p < 9,
    ((nonetStart k).1 + p / 3 = r ∧ (nonetStart k).2 + p % 3 = c) →
      (k = nonetIndexOf r c ∧ p = 3 * (r % 3) + c % 3) := by decide

set_option synthInstance.maxSize 512 in
theorem nonet_coord_mpr : ∀ r < 9, ∀ c < 9, ∀ k < 9, ∀ p < 9,
    k = nonetIndexOf r c → p = 3 * (r % 3) + c % 3 →
      ((nonetStart k).1 + p / 3 = r ∧ (nonetStart k).2 + p % 3 = c) := by decide

theorem get_nonet_setCell_self (b : SudokuBoard) (h9 : b.Is9x9) (r c v : Nat)
    (hr : r < 9) (hc : c < 9) :
    (b.setCell r c v).get_nonet (nonetIndexOf r c) =
      (b.get_nonet (nonetIndexOf r c)).set (3 * (r % 3) + c % 3) v := by
  have hk := nonetIndexOf_lt r hr c hc
  apply List.ext_getElem
  · simp [length_get_nonet]
  · intro p h1 h2
    have hp : p < 9 := by rw [length_get_nonet] at h1; exact h1
    rw [getElem_get_nonet, List.getElem_set]
    rcases eq_or_ne (3 * (r % 3) + c % 3) p with hpe | hpne
    · rw [if_pos hpe]
      have hco := nonet_coord_mpr r hr c hc _ hk p hp rfl hpe.symm
      rw [hco.1, hco.2]
      exact cell_setCell_self b h9 r c v hr hc
    · rw [if_neg hpne, getElem_get_nonet]
      apply cell_setCell_ne
      intro hcc
      exact hpne (nonet_coord_mp r hr c hc _ hk p hp
        ⟨congrArg Prod.fst hcc, congrArg Prod.snd hcc⟩).2.symm

theorem get_nonet_setCell_ne (b : SudokuBoard) (r c v k : Nat)
    (hr : r < 9) (hc : c < 9) (hk : k < 9) (hne : k ≠ nonetIndexOf r c) :
    (b.setCell r c v).get_nonet k = b.get_nonet k := by
  apply List.ext_getElem
  · simp [length_get_nonet]
  · intro p h1 h2
    have hp : p < 9 := by rw [length_get_nonet] at h1; exact h1
    rw [getElem_get_nonet, getElem_get_nonet]
    apply cell_setCell_ne
    intro hcc
    exact hne (nonet_coord_mp r hr c hc k hk p hp
      ⟨congrArg Prod.fst hcc, congrArg Prod.snd hcc⟩).1

end SudokuBoard

/-! ## Validity predicate: characterization and preservation -/

namespace SudokuBoard

theorem uniqueCount_eq_length_iff (l : List Nat) :
    (uniqueCount l == l.length) = true ↔ l.Nodup := by
  unfold uniqueCount
  rw [beq_iff_eq]
  constructor
  · intro h
    have hsub := List.dedup_sublist l
    have heq := hsub.eq_of_length h
    rw [← heq]
    exact List.nodup_dedup l
  · intro h
    rw [List.dedup_eq_self.mpr h]

theorem all_spaces_valid_iff (b : SudokuBoard) :
    b.all_spaces_valid = true ↔
      (∀ i, i < 9 → (nonzeroValues (b.get_row i)).Nodup) ∧
      (∀ i, i < 9 → (nonzeroValues (b.get_column i)).Nodup) ∧
      (∀ i, i < 9 → (nonzeroValues (b.get_nonet i)).Nodup) := by
  unfold all_spaces_valid
  simp only [Bool.and_eq_true, List.all_eq_true, List.mem_range,
    uniqueCount_eq_length_iff]
  tauto

theorem forall_cells (b : SudokuBoard) (h9 : b.Is9x9) (P : Nat → Prop) :
    (∀ row ∈ b.configuration, ∀ v ∈ row, P v) ↔
      (∀ r, r < 9 → ∀ c, c < 9 → P (b.cell r c)) := by
  constructor
  · intro h r hr c hc
    have hr' : r < b.configuration.length := by rw [h9.1]; exact hr
    have hrow : b.configuration[r] ∈ b.configuration := List.getElem_mem hr'
    have hc' : c < b.configuration[r].length := by rw [h9.2 _ hrow]; exact hc
    have hcell : b.cell r c = b.configuration[r][c] := by
      unfold cell
      rw [List.getD_eq_getElem b.configuration [] hr',
        List.getD_eq_getElem b.configuration[r] 0 hc']
    rw [hcell]
    exact h _ hrow _ (List.getElem_mem hc')
  · intro h row hrow v hv
    obtain ⟨r, hr', hrowe⟩ := List.mem_iff_getElem.mp hrow
    obtain ⟨c, hc', hvc⟩ := List.mem_iff_getElem.mp hv
    have hr9 : r < 9 := by rw [← h9.1]; exact hr'
    have hc9 : c < 9 := by rw [← h9.2 row hrow]; exact hc'
    have hc'' : c < b.configuration[r].length := by rw [hrowe]; exact hc'
    have hcell : b.cell r c = v := by
      unfold cell
      rw [List.getD_eq_getElem b.configuration [] hr',
        List.getD_eq_getElem b.configuration[r] 0 hc'']
      simp only [← hrowe] at hvc
      exact hvc
    rw [← hcell]
    exact h r hr9 c hc9

theorem all_spaces_solved_iff (b : SudokuBoard) (h9 : b.Is9x9) :
    b.all_spaces_solved = true ↔ ∀ r, r < 9 → ∀ c, c < 9 → b.cell r c ≠ 0 := by
  rw [← forall_cells b h9 (fun v => v ≠ 0)]
  unfold all_spaces_solved
  constructor
  · intro h row hrow v hv hv0
    subst hv0
    have h' : b.configuration.any (fun row => row.any (fun value => value == 0)) = false := by
      cases hb : b.configuration.any (fun row => row.any (fun value => value == 0)) with
      | false => rfl
      | true => rw [hb] at h; exact absurd h (by simp)
    rw [List.any_eq_false] at h'
    have h2 := h' row hrow
    rw [List.any_eq_true] at h2
    exact h2 ⟨0, hv, rfl⟩
  · intro h
    have h' : b.configuration.any (fun row => row.any (fun value => value == 0)) = false := by
      rw [List.any_eq_false]
      intro row hrow hany
      rw [List.any_eq_true] at hany
      obtain ⟨v, hv, hv0⟩ := hany
      exact h row hrow v hv (by simpa using hv0)
    rw [h']
    rfl

theorem valuesLe9_cell (b : SudokuBoard) (h9 : b.Is9x9) (hv : b.ValuesLe9)
    (r c : Nat) (hr : r < 9) (hc : c < 9) : b.cell r c ≤ 9 :=
  (forall_cells b h9 (fun v => v ≤ 9)).mp hv r hr c hc

end SudokuBoard

namespace SudokuBoard

theorem nonzeroValues_set_zero_sublist (l : List Nat) (c : Nat) :
    (nonzeroValues (l.set c 0)).Sublist (nonzeroValues l) := by
  induction l generalizing c with
  | nil => simp [nonzeroValues]
  | cons a t ih =>
    cases c with
    | zero =>
      rw [List.set_cons_zero]
      unfold nonzeroValues
      rw [List.filter_cons, List.filter_cons]
      rw [if_neg (by decide : ¬(((0 : Nat) != 0) = true))]
      by_cases ha : (a != 0) = true
      · rw [if_pos ha]
        exact List.sublist_cons_self a _
      · rw [if_neg ha]
    | succ n =>
      rw [List.set_cons_succ]
      unfold nonzeroValues
      rw [List.filter_cons, List.filter_cons]
      by_cases ha : (a != 0) = true
      · rw [if_pos ha, if_pos ha]
        exact (ih n).cons₂ a
      · rw [if_neg ha, if_neg ha]
        exact ih n

theorem nonzeroValues_set_val_nodup (l : List Nat) (c v : Nat) (h0 : l.getD c 0 = 0)
    (hv : v ≠ 0) (hm : v ∉ nonzeroValues l) (h : (nonzeroValues l).Nodup) :
    (nonzeroValues (l.set c v)).Nodup := by
  induction l generalizing c with
  | nil => simp [nonzeroValues]
  | cons a t ih =>
    cases c with
    | zero =>
      have ha : a = 0 := by simpa using h0
      subst ha
      rw [List.set_cons_zero]
      unfold nonzeroValues at *
      rw [List.filter_cons] at h hm ⊢
      rw [if_neg (by decide : ¬(((0 : Nat) != 0) = true))] at h hm
      rw [if_pos (by simp [hv])]
      exact List.nodup_cons.mpr ⟨hm, h⟩
    | succ n =>
      rw [List.set_cons_succ]
      unfold nonzeroValues at *
      rw [List.filter_cons] at h hm ⊢
      by_cases ha : (a != 0) = true
      · rw [if_pos ha] at h hm ⊢
        rw [List.nodup_cons] at h
        have hmt : v ∉ List.filter (fun value => value != 0) t :=
          fun hmem => hm (List.mem_cons_of_mem a hmem)
        have hva : v ≠ a := fun hva => hm (hva ▸ List.mem_cons_self a _)
        refine List.nodup_cons.mpr
          ⟨?_, ih n (by simpa using h0) hmt h.2⟩
        intro hmem
        have h2 : a ∈ t.set n v := (List.mem_filter.mp hmem).1
        rcases List.mem_or_eq_of_mem_set h2 with h3 | h3
        · exact h.1 (List.mem_filter.mpr ⟨h3, (List.mem_filter.mp hmem).2⟩)
        · exact hva h3.symm
      · rw [if_neg ha] at h hm ⊢
        exact ih n (by simpa using h0) hm h

end SudokuBoard

namespace SudokuBoard

theorem getD_get_row (b : SudokuBoard) (r c : Nat) (hc : c < 9) :
    (b.get_row r).getD c 0 = b.cell r c := by
  rw [List.getD_eq_getElem _ 0 (by rw [length_get_row]; exact hc), getElem_get_row]

theorem getD_get_column (b : SudokuBoard) (r c : Nat) (hr : r < 9) :
    (b.get_column c).getD r 0 = b.cell r c := by
  rw [List.getD_eq_getElem _ 0 (by rw [length_get_column]; exact hr), getElem_get_column]

theorem getD_get_nonet_pos (b : SudokuBoard) (r c : Nat) (hr : r < 9) (hc : c < 9) :
    (b.get_nonet (nonetIndexOf r c)).getD (3 * (r % 3) + c % 3) 0 = b.cell r c := by
  obtain ⟨h1, h2, h3⟩ := nonetPos_facts r hr c hc
  rw [List.getD_eq_getElem _ 0 (by rw [length_get_nonet]; exact h3), getElem_get_nonet]
  rw [h1, h2]

theorem all_spaces_valid_setCell_zero (b : SudokuBoard) (h9 : b.Is9x9)
    (r c : Nat) (hr : r < 9) (hc : c < 9) (hval : b.all_spaces_valid = true) :
    (b.setCell r c 0).all_spaces_valid = true := by
  rw [all_spaces_valid_iff] at hval ⊢
  obtain ⟨hrow, hcol, hnon⟩ := hval
  refine ⟨?_, ?_, ?_⟩ <;> intro i hi
  · rcases eq_or_ne i r with rfl | hne
    · rw [get_row_setCell_self b h9 i c 0 hi hc]
      exact List.Nodup.sublist (nonzeroValues_set_zero_sublist _ c) (hrow i hi)
    · rw [get_row_setCell_ne b r c 0 i hne]
      exact hrow i hi
  · rcases eq_or_ne i c with rfl | hne
    · rw [get_column_setCell_self b h9 r i 0 hr hi]
      exact List.Nodup.sublist (nonzeroValues_set_zero_sublist _ r) (hcol i hi)
    · rw [get_column_setCell_ne b r c 0 i hne]
      exact hcol i hi
  · rcases eq_or_ne i (nonetIndexOf r c) with rfl | hne
    · rw [get_nonet_setCell_self b h9 r c 0 hr hc]
      exact List.Nodup.sublist (nonzeroValues_set_zero_sublist _ _) (hnon _ hi)
    · rw [get_nonet_setCell_ne b r c 0 i hr hc hi hne]
      exact hnon i hi

theorem all_spaces_valid_setCell_place (b : SudokuBoard) (h9 : b.Is9x9)
    (r c v : Nat) (hr : r < 9) (hc : c < 9) (h0 : b.cell r c = 0) (hv : v ≠ 0)
    (hrm : v ∉ nonzeroValues (b.get_row r)) (hcm : v ∉ nonzeroValues (b.get_column c))
    (hnm : v ∉ nonzeroValues (b.get_nonet (nonetIndexOf r c)))
    (hval : b.all_spaces_valid = true) :
    (b.setCell r c v).all_spaces_valid = true := by
  rw [all_spaces_valid_iff] at hval ⊢
  obtain ⟨hrow, hcol, hnon⟩ := hval
  refine ⟨?_, ?_, ?_⟩ <;> intro i hi
  · rcases eq_or_ne i r with rfl | hne
    · rw [get_row_setCell_self b h9 i c v hi hc]
      exact nonzeroValues_set_val_nodup _ c v (by rw [getD_get_row b i c hc]; exact h0)
        hv hrm (hrow i hi)
    · rw [get_row_setCell_ne b r c v i hne]
      exact hrow i hi
  · rcases eq_or_ne i c with rfl | hne
    · rw [get_column_setCell_self b h9 r i v hr hi]
      exact nonzeroValues_set_val_nodup _ r v (by rw [getD_get_column b r i hr]; exact h0)
        hv hcm (hcol i hi)
    · rw [get_column_setCell_ne b r c v i hne]
      exact hcol i hi
  · rcases eq_or_ne i (nonetIndexOf r c) with rfl | hne
    · rw [get_nonet_setCell_self b h9 r c v hr hc]
      exact nonzeroValues_set_val_nodup _ _ v
        (by rw [getD_get_nonet_pos b r c hr hc]; exact h0) hv hnm (hnon _ hi)
    · rw [get_nonet_setCell_ne b r c v i hr hc hi hne]
      exact hnon i hi

theorem valuesLe9_setCell (b : SudokuBoard) (hv9 : b.ValuesLe9) (r c v : Nat)
    (hv : v ≤ 9) : (b.setCell r c v).ValuesLe9 := by
  intro row hrow u hu
  rcases List.mem_or_eq_of_mem_set hrow with hmem | rfl
  · exact hv9 row hmem u hu
  · rcases List.mem_or_eq_of_mem_set hu with humem | rfl
    · by_cases hlt : r < b.configuration.length
      · have : b.configuration.getD r [] = b.configuration[r] :=
          List.getD_eq_getElem _ _ hlt
        rw [this] at humem
        exact hv9 _ (List.getElem_mem hlt) u humem
      · rw [List.getD_eq_getElem?_getD, List.getElem?_eq_none (Nat.le_of_not_lt hlt)]
          at humem
        simp at humem
    · exact hv

end SudokuBoard

/-! ## Facts about get_unsolved_spaces -/

namespace SudokuBoard

theorem mem_get_unsolved_spaces (b : SudokuBoard) (p : Nat × Nat) :
    p ∈ b.get_unsolved_spaces ↔ p.1 < 9 ∧ p.2 < 9 ∧ b.cell p.1 p.2 = 0 := by
  unfold get_unsolved_spaces
  simp only [List.mem_flatten, List.mem_map, List.mem_filter, List.mem_range]
  constructor
  · rintro ⟨l, ⟨r, hr, rfl⟩, hp⟩
    simp only [List.mem_map, List.mem_filter, List.mem_range] at hp
    obtain ⟨c, ⟨hc, hz⟩, rfl⟩ := hp
    exact ⟨hr, hc, by simpa using hz⟩
  · rintro ⟨h1, h2, h3⟩
    refine ⟨_, ⟨p.1, h1, rfl⟩, ?_⟩
    simp only [List.mem_map, List.mem_filter, List.mem_range]
    exact ⟨p.2, ⟨h2, by simpa using h3⟩, rfl⟩

theorem pairwise_get_unsolved_spaces (b : SudokuBoard) :
    b.get_unsolved_spaces.Pairwise rowMajorLt := by
  unfold get_unsolved_spaces
  rw [List.pairwise_flatten]
  constructor
  · intro l hl
    simp only [List.mem_map, List.mem_range] at hl
    obtain ⟨r, hr, rfl⟩ := hl
    rw [List.pairwise_map]
    apply List.Pairwise.imp (S := fun c1 c2 => rowMajorLt (r, c1) (r, c2))
    · intro a b hab
      exact Or.inr ⟨rfl, hab⟩
    · exact List.Pairwise.filter _ (List.pairwise_lt_range 9)
  · rw [List.pairwise_map]
    apply List.Pairwise.imp
      (S := fun r1 r2 => ∀ x ∈ _, ∀ y ∈ _, rowMajorLt x y) (R := (· < ·))
    · intro r1 r2 hlt x hx y hy
      simp only [List.mem_map, List.mem_filter, List.mem_range] at hx hy
      obtain ⟨c1, _, rfl⟩ := hx
      obtain ⟨c2, _, rfl⟩ := hy
      exact Or.inl hlt
    · exact List.pairwise_lt_range 9

theorem nodup_get_unsolved_spaces (b : SudokuBoard) :
    b.get_unsolved_spaces.Nodup := by
  apply List.Pairwise.imp _ (pairwise_get_unsolved_spaces b)
  intro p q hpq
  rcases hpq with h | ⟨h1, h2⟩
  · intro he
    rw [he] at h
    omega
  · intro he
    rw [he] at h2
    omega

end SudokuBoard

namespace SudokuBoard

theorem range_map_getD {α β : Type} (l : List α) (d : α) (f : α → β) :
    (List.range l.length).map (fun i => f (l.getD i d)) = l.map f := by
  induction l with
  | nil => simp
  | cons a t ih =>
    have hcomp : (fun i => f ((a :: t).getD i d)) ∘ Nat.succ = fun i => f (t.getD i d) := by
      funext i
      simp [Function.comp, List.getD_cons_succ]
    rw [List.length_cons, List.range_succ_eq_map, List.map_cons, List.map_map, hcomp,
      List.getD_cons_zero, ih, List.map_cons]

theorem length_filter_range_getD (l : List Nat) (p : Nat → Bool) :
    ((List.range l.length).filter (fun i => p (l.getD i 0))).length =
      (l.filter p).length := by
  rw [← List.countP_eq_length_filter, ← List.countP_eq_length_filter]
  have h1 : List.countP (fun i => p (l.getD i 0)) (List.range l.length) =
      List.countP p ((List.range l.length).map (fun i => l.getD i 0)) := by
    rw [List.countP_map]
    rfl
  have h2 := range_map_getD l 0 (fun x => x)
  simp only [List.map_id'] at h2
  rw [h1, h2]

theorem countP_add_countP_not (l : List Nat) (p : Nat → Bool) :
    List.countP p l + List.countP (fun a => !(p a)) l = l.length := by
  induction l with
  | nil => simp
  | cons a t ih =>
    rw [List.countP_cons, List.countP_cons, List.length_cons]
    cases hp : p a <;> simp [hp] <;> omega

end SudokuBoard

namespace SudokuBoard

theorem sum_map_add {α : Type} (l : List α) (f g : α → Nat) :
    (l.map (fun x => f x + g x)).sum = (l.map f).sum + (l.map g).sum := by
  induction l with
  | nil => simp
  | cons a t ih =>
    simp only [List.map_cons, List.sum_cons, ih]
    omega

theorem length_unsolved_add_filled (b : SudokuBoard) (h9 : b.Is9x9) :
    b.get_unsolved_spaces.length + filledCount b = 81 := by
  unfold get_unsolved_spaces filledCount
  rw [List.length_flatten, List.map_map]
  have hlen : (List.length ∘ fun row =>
      ((List.range 9).filter (fun column => b.cell row column == 0)).map
        (fun column => (row, column))) =
      fun row => ((List.range 9).filter (fun column => b.cell row column == 0)).length := by
    funext r
    simp
  rw [hlen]
  have h2 := range_map_getD b.configuration [] (fun row => (nonzeroValues row).length)
  rw [h9.1] at h2
  rw [← h2, ← sum_map_add]
  have h3 : (List.range 9).map (fun r =>
      ((List.range 9).filter (fun c => b.cell r c == 0)).length +
        (nonzeroValues (b.configuration.getD r [])).length) =
      (List.range 9).map (fun _ => 9) := by
    apply List.map_congr_left
    intro r hr
    rw [List.mem_range] at hr
    have hrow9 : (b.configuration.getD r []).length = 9 := rowLen b h9 r hr
    have h4 : ((List.range 9).filter (fun c => b.cell r c == 0)).length =
        ((b.configuration.getD r []).filter (fun v => v == 0)).length := by
      have h5 := length_filter_range_getD (b.configuration.getD r []) (fun v => v == 0)
      rw [hrow9] at h5
      exact h5
    rw [h4]
    have h6 : (nonzeroValues (b.configuration.getD r [])).length =
        List.countP (fun v => !(v == 0)) (b.configuration.getD r []) := by
      unfold nonzeroValues
      rw [← List.countP_eq_length_filter]
      rfl
    rw [h6, ← List.countP_eq_length_filter, countP_add_countP_not, hrow9]
  rw [h3]
  rfl

end SudokuBoard

/-! ## Claim theorems -/

/-- C7: for every 9x9 board that passes all_spaces_valid(),
get_unsolved_spaces() returns exactly the coordinates of the zero cells, its
length plus the number of nonzero cells is 81, and the coordinates are in
strict row-major ascending order. -/
theorem C7_unsolved_spaces_spec (b : SudokuBoard) (h9 : b.Is9x9)
    (_hval : b.all_spaces_valid = true) :
    (∀ p, p ∈ b.get_unsolved_spaces ↔ p.1 < 9 ∧ p.2 < 9 ∧ b.cell p.1 p.2 = 0) ∧
    b.get_unsolved_spaces.length + filledCount b = 81 ∧
    b.get_unsolved_spaces.Pairwise rowMajorLt :=
  ⟨fun p => mem_get_unsolved_spaces b p, length_unsolved_add_filled b h9,
   pairwise_get_unsolved_spaces b⟩

/-- Witness for C7 at the easy test fixture. -/
theorem C7_unsolved_spaces_spec_witness :
    easyBoard.Is9x9 ∧ easyBoard.all_spaces_valid = true ∧
    ((∀ p, p ∈ easyBoard.get_unsolved_spaces ↔
        p.1 < 9 ∧ p.2 < 9 ∧ easyBoard.cell p.1 p.2 = 0) ∧
      easyBoard.get_unsolved_spaces.length + filledCount easyBoard = 81 ∧
      easyBoard.get_unsolved_spaces.Pairwise rowMajorLt) :=
  ⟨by decide, by decide, C7_unsolved_spaces_spec easyBoard (by decide) (by decide)⟩

/-- C8: on a 9x9 board, each of get_row, get_column and get_nonet fails with
InvalidIndex for every index outside [0,8], and succeeds returning 9 values
for every index in [0,8]. -/
theorem C8_accessor_index_errors (b : SudokuBoard) (h9 : b.Is9x9) :
    (∀ k, 9 ≤ k →
      b.get_rowE k = .error .invalidIndex ∧
      b.get_columnE k = .error .invalidIndex ∧
      b.get_nonetE k = .error .invalidIndex) ∧
    (∀ k, k < 9 →
      b.get_rowE k = .ok (b.get_row k) ∧ (b.get_row k).length = 9 ∧
      b.get_columnE k = .ok (b.get_column k) ∧ (b.get_column k).length = 9 ∧
      b.get_nonetE k = .ok (b.get_nonet k) ∧ (b.get_nonet k).length = 9) := by
  have hcol0 : (b.configuration.getD 0 []).length = 9 := rowLen b h9 0 (by omega)
  constructor
  · intro k hk
    refine ⟨?_, ?_, ?_⟩
    · unfold get_rowE
      rw [if_neg (by rw [h9.1]; omega)]
    · unfold get_columnE
      rw [if_neg (by rw [hcol0]; omega)]
    · unfold get_nonetE
      rw [if_neg (by omega)]
  · intro k hk
    refine ⟨?_, length_get_row b k, ?_, length_get_column b k, ?_, length_get_nonet b k⟩
    · unfold get_rowE
      rw [if_pos (by rw [h9.1]; omega)]
    · unfold get_columnE
      rw [if_pos (by rw [hcol0]; omega)]
    · unfold get_nonetE
      rw [if_pos (by omega)]

/-- Witness for C8 at the full test fixture. -/
theorem C8_accessor_index_errors_witness :
    fullBoard.Is9x9 ∧
    ((∀ k, 9 ≤ k →
        fullBoard.get_rowE k = .error .invalidIndex ∧
        fullBoard.get_columnE k = .error .invalidIndex ∧
        fullBoard.get_nonetE k = .error .invalidIndex) ∧
      (∀ k, k < 9 →
        fullBoard.get_rowE k = .ok (fullBoard.get_row k) ∧
        (fullBoard.get_row k).length = 9 ∧
        fullBoard.get_columnE k = .ok (fullBoard.get_column k) ∧
        (fullBoard.get_column k).length = 9 ∧
        fullBoard.get_nonetE k = .ok (fullBoard.get_nonet k) ∧
        (fullBoard.get_nonet k).length = 9)) :=
  ⟨by decide, C8_accessor_index_errors fullBoard (by decide)⟩

/-- C3 counterexample: the claim says every input containing a cell value
outside [0,9] is rejected at construction time (Board or Solver); but lib.rs's
SudokuSolver::new accepts this 9x9 grid even though it contains the cell
value 10, because lib.rs has no value-range check and a single 10 collides
with nothing. -/
theorem C3_counterexample :
    cfgVal10.any (fun row => row.any (fun value => 9 < value)) = true ∧
    (Lib.SudokuSolver.new cfgVal10).isOk = true := by
  constructor
  · decide
  · rfl

/-- C3 (amended): wrong dimensions are rejected with InvalidDimensions by both
SudokuBoard::new and lib.rs's SudokuSolver::new; a duplicate nonzero value in
some row, column or nonet is rejected with InvalidPuzzle by both Solver
constructors; a cell value outside [0,9] is rejected with InvalidValue by
sudoku_board.rs's SudokuBoard::new (lib.rs's SudokuSolver::new, by contrast,
accepts a lone out-of-range value — see the counterexample); in particular an
8-row grid, a row of length 8 and a cell value of 10 are rejected by
SudokuBoard::new, and a grid with two 5s in row 0 is rejected by both Solver
constructors, all before any search begins. -/
theorem C3_construction_rejection :
    (∀ cfg : List (List Nat),
      (cfg.length != 9 || cfg.any (fun row => row.length != 9)) = true →
        SudokuBoard.new cfg = .error .invalidDimensions ∧
        Lib.SudokuSolver.new cfg = .error .invalidDimensions) ∧
    (∀ cfg : List (List Nat),
      (cfg.length != 9 || cfg.any (fun row => row.length != 9)) = false →
      cfg.any (fun row => row.any (fun value => 9 < value)) = true →
        SudokuBoard.new cfg = .error .invalidValue) ∧
    (∀ b : SudokuBoard,
      ((∃ i, i < 9 ∧ ¬(nonzeroValues (b.get_row i)).Nodup) ∨
       (∃ i, i < 9 ∧ ¬(nonzeroValues (b.get_column i)).Nodup) ∨
       (∃ i, i < 9 ∧ ¬(nonzeroValues (b.get_nonet i)).Nodup)) →
        SudokuSolver.new b = .error .invalidPuzzle) ∧
    (∀ cfg : List (List Nat),
      (cfg.length != 9 || cfg.any (fun row => row.length != 9)) = false →
      ((∃ i, i < 9 ∧ ¬(nonzeroValues ((⟨cfg⟩ : SudokuBoard).get_row i)).Nodup) ∨
       (∃ i, i < 9 ∧ ¬(nonzeroValues ((⟨cfg⟩ : SudokuBoard).get_column i)).Nodup) ∨
       (∃ i, i < 9 ∧ ¬(nonzeroValues ((⟨cfg⟩ : SudokuBoard).get_nonet i)).Nodup)) →
        Lib.SudokuSolver.new cfg = .error .invalidPuzzle) := by
  have hval_false : ∀ b : SudokuBoard,
      ((∃ i, i < 9 ∧ ¬(nonzeroValues (b.get_row i)).Nodup) ∨
       (∃ i, i < 9 ∧ ¬(nonzeroValues (b.get_column i)).Nodup) ∨
       (∃ i, i < 9 ∧ ¬(nonzeroValues (b.get_nonet i)).Nodup)) →
        b.all_spaces_valid = false := by
    intro b hbad
    cases hv : b.all_spaces_valid with
    | false => rfl
    | true =>
      exfalso
      rw [all_spaces_valid_iff] at hv
      rcases hbad with ⟨i, hi, hnd⟩ | ⟨i, hi, hnd⟩ | ⟨i, hi, hnd⟩
      · exact hnd (hv.1 i hi)
      · exact hnd (hv.2.1 i hi)
      · exact hnd (hv.2.2 i hi)
  refine ⟨?_, ?_, ?_, ?_⟩
  · intro cfg hdim
    constructor
    · unfold SudokuBoard.new
      rw [if_pos hdim]
    · unfold Lib.SudokuSolver.new
      rw [if_pos hdim]
  · intro cfg hdim hvalue
    unfold SudokuBoard.new
    rw [if_neg (by rw [hdim]; simp), if_pos hvalue]
  · intro b hbad
    unfold SudokuSolver.new
    rw [hval_false b hbad]
    rfl
  · intro cfg hdim hbad
    unfold Lib.SudokuSolver.new
    rw [if_neg (by rw [hdim]; simp)]
    have hv := hval_false ⟨cfg⟩ hbad
    simp [hv]

/-- Witness for C3 (amended) at the test fixtures: the 8-row grid, the
grid with a row of length 8, the grid containing a 10, and the grid with two
5s in row 0. -/
theorem C3_construction_rejection_witness :
    (SudokuBoard.new cfg8rows = .error .invalidDimensions ∧
      Lib.SudokuSolver.new cfg8rows = .error .invalidDimensions) ∧
    (SudokuBoard.new cfgShortRow = .error .invalidDimensions ∧
      Lib.SudokuSolver.new cfgShortRow = .error .invalidDimensions) ∧
    SudokuBoard.new cfgVal10 = .error .invalidValue ∧
    SudokuSolver.new (⟨cfgTwoFives⟩ : SudokuBoard) = .error .invalidPuzzle ∧
    Lib.SudokuSolver.new cfgTwoFives = .error .invalidPuzzle :=
  ⟨C3_construction_rejection.1 cfg8rows (by decide),
   C3_construction_rejection.1 cfgShortRow (by decide),
   C3_construction_rejection.2.1 cfgVal10 (by decide) (by decide),
   C3_construction_rejection.2.2.1 ⟨cfgTwoFives⟩ (Or.inl ⟨0, by decide, by decide⟩),
   C3_construction_rejection.2.2.2 cfgTwoFives (by decide)
     (Or.inl ⟨0, by decide, by decide⟩)⟩

/-! ## Solver-level basic lemmas and claims C2, C9, C10 -/

theorem SudokuBoard.copy_eq (x : SudokuBoard) : SudokuBoard.copy x = x := rfl

theorem solveLoop_mono (us : List (Nat × Nat)) (f f' : Nat) (hle : f ≤ f')
    (st : SearchState) (r : SolveOutcome) (h : solveLoop us f st = some r) :
    solveLoop us f' st = some r := by
  induction f generalizing st f' with
  | zero =>
    unfold solveLoop at h ⊢
    by_cases hg : st.idx < us.length
    · rw [if_pos hg] at h
      exact absurd h (by simp)
    · rw [if_neg hg] at h ⊢
      exact h
  | succ k ih =>
    unfold solveLoop at h ⊢
    by_cases hg : st.idx < us.length
    · rw [if_pos hg] at h ⊢
      obtain ⟨k', rfl⟩ : ∃ k', f' = k' + 1 := ⟨f' - 1, by omega⟩
      cases hstep : solveStep us st with
      | underflow => rw [hstep] at h; exact h
      | next st' =>
        rw [hstep] at h
        exact ih k' (by omega) st' h
    · rw [if_neg hg] at h ⊢
      exact h

/-- C9: frame property — SudokuSolver::new stores a copy of the board it is
given (the input itself is untouched, the embedding being pure), and solve()
leaves board, unsolved_spaces and percent_solved unchanged: the only field
that can change is the one-time write of the solved_board cache, and a cache
already populated is never overwritten. -/
theorem C9_frame_property (b : SudokuBoard) (s : SudokuSolver) (fuel : Nat)
    (out : SolveOutcome) (s' : SudokuSolver)
    (hnew : SudokuSolver.new b = .ok s)
    (hsolve : s.solve fuel = some (out, s')) :
    s.board.configuration = b.configuration ∧
    s'.board = s.board ∧
    s'.unsolved_spaces = s.unsolved_spaces ∧
    s'.percent_solved = s.percent_solved ∧
    (∀ cached, s.solved_board = some cached → s'.solved_board = some cached) := by
  have hboard : s.board.configuration = b.configuration := by
    unfold SudokuSolver.new at hnew
    by_cases hv : (!b.all_spaces_valid) = true
    · rw [if_pos hv] at hnew
      exact absurd hnew (by simp)
    · rw [if_neg hv] at hnew
      injection hnew with hnew
      rw [← hnew]
      rfl
  refine ⟨hboard, ?_⟩
  unfold SudokuSolver.solve at hsolve
  cases hc : s.solved_board with
  | some cached =>
    rw [hc] at hsolve
    injection hsolve with hsolve
    have hs' : s = s' := congrArg Prod.snd hsolve
    subst hs'
    exact ⟨rfl, rfl, rfl, fun cached' hcc => hc.trans hcc⟩
  | none =>
    rw [hc] at hsolve
    cases hl : solveLoop s.unsolved_spaces fuel (initialState s.board) with
    | none =>
      rw [hl] at hsolve
      exact absurd hsolve (by simp)
    | some o =>
      rw [hl] at hsolve
      cases o with
      | solved bb =>
        injection hsolve with hsolve
        have hs' : ({ s with solved_board := some bb } : SudokuSolver) = s' :=
          congrArg Prod.snd hsolve
        subst hs'
        exact ⟨rfl, rfl, rfl, fun cached' hcc => Option.noConfusion hcc⟩
      | underflow =>
        injection hsolve with hsolve
        have hs' : s = s' := congrArg Prod.snd hsolve
        subst hs'
        exact ⟨rfl, rfl, rfl, fun cached' hcc => Option.noConfusion hcc⟩
      | indexOutOfBounds =>
        injection hsolve with hsolve
        have hs' : s = s' := congrArg Prod.snd hsolve
        subst hs'
        exact ⟨rfl, rfl, rfl, fun cached' hcc => Option.noConfusion hcc⟩

/-- Witness for C9 at the fully solved fixture. -/
theorem C9_frame_property_witness :
    SudokuSolver.new fullBoard = .ok fullSolver ∧
    fullSolver.solve 1 = some (.solved fullBoard, fullSolverCached) ∧
    (fullSolver.board.configuration = fullBoard.configuration ∧
      fullSolverCached.board = fullSolver.board ∧
      fullSolverCached.unsolved_spaces = fullSolver.unsolved_spaces ∧
      fullSolverCached.percent_solved = fullSolver.percent_solved ∧
      (∀ cached, fullSolver.solved_board = some cached →
        fullSolverCached.solved_board = some cached)) :=
  ⟨rfl, rfl, C9_frame_property fullBoard fullSolver 1 (.solved fullBoard)
    fullSolverCached rfl rfl⟩

/-- C2: memoized idempotence — a successful solve() stores the resulting
board in the solver's cache, and every subsequent call (any fuel, including
none at all: the search does not run again) returns the same board and
leaves the solver unchanged, so two calls yield identical configurations. -/
theorem C2_memoized_idempotence (s : SudokuSolver) (fuel : Nat)
    (out : SudokuBoard) (s' : SudokuSolver)
    (h : s.solve fuel = some (.solved out, s')) :
    s'.solved_board = some out ∧
    (∀ fuel', s'.solve fuel' = some (.solved out, s')) := by
  unfold SudokuSolver.solve at h
  cases hc : s.solved_board with
  | some cached =>
    rw [hc] at h
    injection h with h
    have ho : SolveOutcome.solved (SudokuBoard.copy cached) = .solved out :=
      congrArg Prod.fst h
    injection ho with ho
    rw [SudokuBoard.copy_eq] at ho
    subst ho
    have hs' : s = s' := congrArg Prod.snd h
    subst hs'
    refine ⟨hc, fun fuel' => ?_⟩
    simp only [SudokuSolver.solve, hc, SudokuBoard.copy_eq]
  | none =>
    rw [hc] at h
    cases hl : solveLoop s.unsolved_spaces fuel (initialState s.board) with
    | none =>
      rw [hl] at h
      exact absurd h (by simp)
    | some o =>
      rw [hl] at h
      cases o with
      | solved bb =>
        injection h with h
        have ho : SolveOutcome.solved (SudokuBoard.copy bb) = .solved out :=
          congrArg Prod.fst h
        injection ho with ho
        rw [SudokuBoard.copy_eq] at ho
        subst ho
        have hs' : ({ s with solved_board := some bb } : SudokuSolver) = s' :=
          congrArg Prod.snd h
        subst hs'
        refine ⟨rfl, fun fuel' => ?_⟩
        simp only [SudokuSolver.solve, SudokuBoard.copy_eq]
      | underflow =>
        injection h with h
        have ho : SolveOutcome.underflow = SolveOutcome.solved out :=
          congrArg Prod.fst h
        exact absurd ho (by simp)
      | indexOutOfBounds =>
        injection h with h
        have ho : SolveOutcome.indexOutOfBounds = SolveOutcome.solved out :=
          congrArg Prod.fst h
        exact absurd ho (by simp)

/-- Witness for C2 at the fully solved fixture. -/
theorem C2_memoized_idempotence_witness :
    fullSolver.solve 1 = some (.solved fullBoard, fullSolverCached) ∧
    (fullSolverCached.solved_board = some fullBoard ∧
      (∀ fuel', fullSolverCached.solve fuel' = some (.solved fullBoard, fullSolverCached))) :=
  ⟨rfl, C2_memoized_idempotence fullSolver 1 fullBoard fullSolverCached rfl⟩

/-- C10: determinism — solve() is a function of the starting configuration:
two solvers constructed from boards with equal configurations return boards
with equal configurations on a first successful call, for any fuel amounts
(candidates are scanned in a fixed ascending order and the forbidden-set
filtering depends only on membership). -/
theorem C10_solve_deterministic (b b' : SudokuBoard) (s s' : SudokuSolver)
    (fuel fuel' : Nat) (hcfg : b.configuration = b'.configuration)
    (h1 : SudokuSolver.new b = .ok s) (h2 : SudokuSolver.new b' = .ok s')
    (o o' : SudokuBoard) (t t' : SudokuSolver)
    (hs1 : s.solve fuel = some (.solved o, t))
    (hs2 : s'.solve fuel' = some (.solved o', t')) :
    o.configuration = o'.configuration := by
  have hb : b = b' := by
    cases b
    cases b'
    simpa using hcfg
  subst hb
  rw [h1] at h2
  injection h2 with h2
  subst h2
  unfold SudokuSolver.solve at hs1 hs2
  cases hc : s.solved_board with
  | some cached =>
    rw [hc] at hs1 hs2
    injection hs1 with hs1
    injection hs2 with hs2
    have e1 : SolveOutcome.solved (SudokuBoard.copy cached) = .solved o :=
      congrArg Prod.fst hs1
    have e2 : SolveOutcome.solved (SudokuBoard.copy cached) = .solved o' :=
      congrArg Prod.fst hs2
    injection e1 with e1
    injection e2 with e2
    rw [← e1, ← e2]
  | none =>
    rw [hc] at hs1 hs2
    rcases Nat.le_total fuel fuel' with hle | hle
    · cases hl1 : solveLoop s.unsolved_spaces fuel (initialState s.board) with
      | none => rw [hl1] at hs1; exact absurd hs1 (by simp)
      | some r1 =>
        have hl2 := solveLoop_mono s.unsolved_spaces fuel fuel' hle _ r1 hl1
        rw [hl1] at hs1
        rw [hl2] at hs2
        rw [hs1] at hs2
        injection hs2 with hs2
        have e : SolveOutcome.solved o = .solved o' := congrArg Prod.fst hs2
        injection e with e
        rw [e]
    · cases hl2 : solveLoop s.unsolved_spaces fuel' (initialState s.board) with
      | none => rw [hl2] at hs2; exact absurd hs2 (by simp)
      | some r2 =>
        have hl1 := solveLoop_mono s.unsolved_spaces fuel' fuel hle _ r2 hl2
        rw [hl1] at hs1
        rw [hl2] at hs2
        rw [hs1] at hs2
        injection hs2 with hs2
        have e : SolveOutcome.solved o = .solved o' := congrArg Prod.fst hs2
        injection e with e
        rw [e]

/-- Witness for C10 at the fully solved fixture. -/
theorem C10_solve_deterministic_witness :
    fullBoard.configuration = fullBoard.configuration ∧
    SudokuSolver.new fullBoard = .ok fullSolver ∧
    fullSolver.solve 1 = some (.solved fullBoard, fullSolverCached) ∧
    fullSolver.solve 2 = some (.solved fullBoard, fullSolverCached) ∧
    fullBoard.configuration = fullBoard.configuration :=
  ⟨rfl, rfl, rfl, rfl,
   C10_solve_deterministic fullBoard fullBoard fullSolver fullSolver 1 2 rfl rfl rfl
     fullBoard fullBoard fullSolverCached fullSolverCached rfl rfl⟩

/-! ## Helpers for the loop analysis -/

theorem head?_some_mem {α : Type} {l : List α} {v : α} (h : l.head? = some v) :
    v ∈ l := by
  cases l with
  | nil => cases h
  | cons a t =>
    rw [List.head?_cons] at h
    injection h with h
    rw [← h]
    exact List.mem_cons_self a t

theorem mem_allValueCandidates (v : Nat) : v ∈ allValueCandidates ↔ 1 ≤ v ∧ v ≤ 9 := by
  simp only [allValueCandidates, List.mem_cons, List.not_mem_nil, or_false]
  omega

theorem contains_eq_true_iff (l : List Nat) (v : Nat) :
    l.contains v = true ↔ v ∈ l := by
  simp

theorem nodup_getD_ne {α : Type} [Inhabited α] (l : List α) (h : l.Nodup)
    (j k : Nat) (hj : j < l.length) (hk : k < l.length) (hne : j ≠ k) (d : α) :
    l.getD j d ≠ l.getD k d := by
  rw [List.getD_eq_getElem l d hj, List.getD_eq_getElem l d hk]
  intro he
  exact hne (List.Nodup.getElem_inj_iff h |>.mp he)

theorem usAt_mem (us : List (Nat × Nat)) (j : Nat) (hj : j < us.length) :
    usAt us j ∈ us := by
  unfold usAt
  rw [List.getD_eq_getElem us (0, 0) hj]
  exact List.getElem_mem hj

theorem usAt_facts (B0 : SudokuBoard) (j : Nat)
    (hj : j < B0.get_unsolved_spaces.length) :
    (usAt B0.get_unsolved_spaces j).1 < 9 ∧ (usAt B0.get_unsolved_spaces j).2 < 9 ∧
      B0.cell (usAt B0.get_unsolved_spaces j).1 (usAt B0.get_unsolved_spaces j).2 = 0 :=
  (mem_get_unsolved_spaces B0 _).mp (usAt_mem _ j hj)

theorem stepValid_head_facts (us : List (Nat × Nat)) (st : SearchState) (v : Nat)
    (h : (stepValid us st).head? = some v) :
    1 ≤ v ∧ v ≤ 9 ∧ v ∉ st.attempted (stepSpace us st) ∧
    v ∉ contextInvalid (stepZeroed us st) (stepSpace us st).1 (stepSpace us st).2 := by
  have hmem := head?_some_mem h
  unfold stepValid at hmem
  rw [List.mem_filter] at hmem
  obtain ⟨hmem1, hmem2⟩ := hmem
  have hrange := (mem_allValueCandidates v).mp hmem1
  have hnotin : v ∉ stepInvalid us st := by
    intro hin
    rw [Bool.not_eq_true', ← Bool.not_eq_true] at hmem2
    exact hmem2 ((contains_eq_true_iff _ v).mpr hin)
  unfold stepInvalid at hnotin
  rw [List.mem_append] at hnotin
  push_neg at hnotin
  exact ⟨hrange.1, hrange.2, hnotin.1, hnotin.2⟩

theorem not_mem_contextInvalid (b : SudokuBoard) (r c v : Nat)
    (h : v ∉ contextInvalid b r c) :
    v ∉ nonzeroValues (b.get_row r) ∧ v ∉ nonzeroValues (b.get_column c) ∧
    v ∉ nonzeroValues (b.get_nonet (nonetIndexOf r c)) := by
  unfold contextInvalid at h
  rw [List.mem_append, List.mem_append] at h
  push_neg at h
  exact ⟨h.1.1, h.1.2, h.2⟩

theorem stepValid_none_forbidden (us : List (Nat × Nat)) (st : SearchState)
    (h : (stepValid us st).head? = none) :
    ∀ v, 1 ≤ v → v ≤ 9 → v ∈ stepInvalid us st := by
  rw [List.head?_eq_none_iff] at h
  intro v h1 h2
  by_contra hnot
  have hvmem : v ∈ stepValid us st := by
    unfold stepValid
    rw [List.mem_filter]
    refine ⟨(mem_allValueCandidates v).mpr ⟨h1, h2⟩, ?_⟩
    rw [Bool.not_eq_true']
    rw [← Bool.not_eq_true]
    intro hco
    exact hnot ((contains_eq_true_iff _ v).mp hco)
  rw [h] at hvmem
  cases hvmem

theorem ne_pair_proj {p q : Nat × Nat} (h : p ≠ q) : (p.1, p.2) ≠ (q.1, q.2) :=
  fun he => h he

theorem ne_pair_projL {p q : Nat × Nat} (h : p ≠ q) : (p.1, p.2) ≠ q :=
  fun he => h he

theorem loopInv_preserved (B0 : SudokuBoard) (st st' : SearchState)
    (hinv : LoopInv B0 B0.get_unsolved_spaces st)
    (hguard : st.idx < B0.get_unsolved_spaces.length)
    (hstep : solveStep B0.get_unsolved_spaces st = .next st') :
    LoopInv B0 B0.get_unsolved_spaces st' := by
  set us := B0.get_unsolved_spaces with hus
  have hnodup : us.Nodup := nodup_get_unsolved_spaces B0
  obtain ⟨hlen, h9, hv9, hval, hbefore, hafter, hlast, hframe⟩ := hinv
  obtain ⟨hr9, hc9, hB0z⟩ := usAt_facts B0 st.idx hguard
  have hsp : stepSpace us st = usAt us st.idx := rfl
  have hz9 : (stepZeroed us st).Is9x9 := is9x9_setCell _ h9 _ _ _ hr9
  have hzv : (stepZeroed us st).ValuesLe9 := valuesLe9_setCell _ hv9 _ _ _ (by omega)
  have hzval : (stepZeroed us st).all_spaces_valid = true :=
    all_spaces_valid_setCell_zero _ h9 _ _ hr9 hc9 hval
  have hzcell_self : (stepZeroed us st).cell (usAt us st.idx).1 (usAt us st.idx).2 = 0 :=
    cell_setCell_self _ h9 _ _ _ hr9 hc9
  have hzcell_ne : ∀ r c, (r, c) ≠ usAt us st.idx →
      (stepZeroed us st).cell r c = st.board.cell r c := fun r c hne =>
    cell_setCell_ne _ _ _ _ _ _ hne
  have husne : ∀ j, j < us.length → j ≠ st.idx → usAt us j ≠ usAt us st.idx :=
    fun j hj hne => nodup_getD_ne us hnodup j st.idx hj hguard hne (0, 0)
  cases hhead : (stepValid us st).head? with
  | some v =>
    unfold solveStep at hstep
    rw [hhead] at hstep
    injection hstep with hstep
    subst hstep
    obtain ⟨hv1, hvle, hvatt, hvctx⟩ := stepValid_head_facts us st v hhead
    obtain ⟨hvrow, hvcol, hvnon⟩ := not_mem_contextInvalid _ _ _ _ hvctx
    rw [hsp] at hvrow hvcol hvnon
    have hb9 : ((stepZeroed us st).setCell (stepSpace us st).1 (stepSpace us st).2
        v).Is9x9 := is9x9_setCell _ hz9 _ _ _ hr9
    have hbv : ((stepZeroed us st).setCell (stepSpace us st).1 (stepSpace us st).2
        v).ValuesLe9 := valuesLe9_setCell _ hzv _ _ _ hvle
    have hbval : ((stepZeroed us st).setCell (stepSpace us st).1 (stepSpace us st).2
        v).all_spaces_valid = true := by
      rw [hsp]
      exact all_spaces_valid_setCell_place _ hz9 _ _ v hr9 hc9 hzcell_self
        (by omega) hvrow hvcol hvnon hzval
    have hbcell_self : ((stepZeroed us st).setCell (stepSpace us st).1
        (stepSpace us st).2 v).cell (usAt us st.idx).1 (usAt us st.idx).2 = v := by
      rw [hsp]
      exact cell_setCell_self _ hz9 _ _ _ hr9 hc9
    have hbcell_ne : ∀ r c, (r, c) ≠ usAt us st.idx →
        ((stepZeroed us st).setCell (stepSpace us st).1 (stepSpace us st).2
          v).cell r c = st.board.cell r c := by
      intro r c hne
      rw [hsp]
      rw [cell_setCell_ne _ _ _ _ _ _ (ne_pair_proj hne)]
      exact hzcell_ne r c hne
    unfold LoopInv
    dsimp only
    refine ⟨by omega, hb9, hbv, hbval, ?_, ?_, ?_, ?_⟩
    · intro j hj
      rcases Nat.lt_or_ge j st.idx with hlt | hge
      · rw [hbcell_ne (usAt us j).1 (usAt us j).2
          (ne_pair_projL (husne j (by omega) (by omega)))]
        exact hbefore j hlt
      · have hj' : j = st.idx := by omega
        subst hj'
        rw [hbcell_self]
        omega
    · intro j hj1 hj2
      rw [hbcell_ne (usAt us j).1 (usAt us j).2
        (ne_pair_projL (husne j hj2 (by omega)))]
      exact hafter j (by omega) hj2
    · intro hlen2
      rw [hbcell_ne (usAt us (st.idx + 1)).1 (usAt us (st.idx + 1)).2
        (ne_pair_projL (husne (st.idx + 1) (by omega) (by omega)))]
      exact hafter (st.idx + 1) (by omega) (by omega)
    · intro r c hr hc hnot
      have hne : (r, c) ≠ usAt us st.idx := fun he => hnot (he ▸ usAt_mem us st.idx hguard)
      rw [hbcell_ne _ _ hne]
      exact hframe r c hr hc hnot
  | none =>
    unfold solveStep at hstep
    rw [hhead] at hstep
    cases hidx : st.idx with
    | zero =>
      rw [hidx] at hstep
      cases hstep
    | succ i =>
      rw [hidx] at hstep
      injection hstep with hstep
      subst hstep
      unfold LoopInv
      dsimp only
      refine ⟨by omega, hz9, hzv, hzval, ?_, ?_, ?_, ?_⟩
      · intro j hj
        rw [hzcell_ne (usAt us j).1 (usAt us j).2
          (ne_pair_projL (husne j (by omega) (by omega)))]
        exact hbefore j (by omega)
      · intro j hj1 hj2
        rcases eq_or_ne j st.idx with heq | hne'
        · subst heq
          exact hzcell_self
        · rw [hzcell_ne (usAt us j).1 (usAt us j).2
            (ne_pair_projL (husne j hj2 hne'))]
          exact hafter j (by omega) hj2
      · intro hlen2
        omega
      · intro r c hr hc hnot
        have hne : (r, c) ≠ usAt us st.idx :=
          fun he => hnot (he ▸ usAt_mem us st.idx hguard)
        rw [hzcell_ne _ _ hne]
        exact hframe r c hr hc hnot

theorem loopInv_initial (B0 : SudokuBoard) (h9 : B0.Is9x9) (hv : B0.ValuesLe9)
    (hval : B0.all_spaces_valid = true) :
    LoopInv B0 B0.get_unsolved_spaces (initialState B0) := by
  unfold LoopInv initialState
  dsimp only
  refine ⟨Nat.zero_le _, h9, hv, hval, ?_, ?_, ?_, ?_⟩
  · intro j hj
    omega
  · intro j hj1 hj2
    exact (usAt_facts B0 j hj2).2.2
  · intro h1
    exact (usAt_facts B0 0 (by omega)).2.2
  · intro r c _ _ _
    rfl

theorem solveLoop_sound (B0 : SudokuBoard) (fuel : Nat) (st : SearchState)
    (b : SudokuBoard) (hinv : LoopInv B0 B0.get_unsolved_spaces st)
    (h : solveLoop B0.get_unsolved_spaces fuel st = some (.solved b)) :
    b.Is9x9 ∧ b.ValuesLe9 ∧ b.all_spaces_valid = true ∧
      b.all_spaces_solved = true := by
  induction fuel generalizing st with
  | zero =>
    unfold solveLoop at h
    by_cases hg : st.idx < B0.get_unsolved_spaces.length
    · rw [if_pos hg] at h
      cases h
    · rw [if_neg hg] at h
      injection h with h
      injection h with h
      subst h
      obtain ⟨hlen, h9, hv9, hval, hbefore, hafter, hlast, hframe⟩ := hinv
      refine ⟨h9, hv9, hval, ?_⟩
      rw [all_spaces_solved_iff _ h9]
      intro r hr c hc
      by_cases hmem : (r, c) ∈ B0.get_unsolved_spaces
      · obtain ⟨j, hj, hje⟩ := List.mem_iff_getElem.mp hmem
        have hja : usAt B0.get_unsolved_spaces j = (r, c) := by
          unfold usAt
          rw [List.getD_eq_getElem _ (0, 0) hj, hje]
        have := hbefore j (by omega)
        rw [hja] at this
        exact this
      · rw [hframe r c hr hc hmem]
        intro h0
        exact hmem ((mem_get_unsolved_spaces B0 (r, c)).mpr ⟨hr, hc, h0⟩)
  | succ k ih =>
    unfold solveLoop at h
    by_cases hg : st.idx < B0.get_unsolved_spaces.length
    · rw [if_pos hg] at h
      cases hstep : solveStep B0.get_unsolved_spaces st with
      | underflow =>
        rw [hstep] at h
        injection h with h
        cases h
      | next st' =>
        rw [hstep] at h
        exact ih st' (loopInv_preserved B0 st st' hinv hg hstep) h
    · rw [if_neg hg] at h
      injection h with h
      injection h with h
      subst h
      obtain ⟨hlen, h9, hv9, hval, hbefore, hafter, hlast, hframe⟩ := hinv
      refine ⟨h9, hv9, hval, ?_⟩
      rw [all_spaces_solved_iff _ h9]
      intro r hr c hc
      by_cases hmem : (r, c) ∈ B0.get_unsolved_spaces
      · obtain ⟨j, hj, hje⟩ := List.mem_iff_getElem.mp hmem
        have hja : usAt B0.get_unsolved_spaces j = (r, c) := by
          unfold usAt
          rw [List.getD_eq_getElem _ (0, 0) hj, hje]
        have := hbefore j (by omega)
        rw [hja] at this
        exact this
      · rw [hframe r c hr hc hmem]
        intro h0
        exact hmem ((mem_get_unsolved_spaces B0 (r, c)).mpr ⟨hr, hc, h0⟩)

theorem new_ok_props (cfg : List (List Nat)) (b : SudokuBoard)
    (h : SudokuBoard.new cfg = .ok b) :
    b.configuration = cfg ∧ b.Is9x9 ∧ b.ValuesLe9 := by
  unfold SudokuBoard.new at h
  by_cases h1 : (cfg.length != 9 || cfg.any (fun row => row.length != 9)) = true
  · rw [if_pos h1] at h
    cases h
  · rw [if_neg h1] at h
    by_cases h2 : (cfg.any (fun row => row.any (fun value => 9 < value))) = true
    · rw [if_pos h2] at h
      cases h
    · rw [if_neg h2] at h
      injection h with h
      subst h
      simp only [Bool.or_eq_true, not_or, bne_iff_ne, ne_eq, List.any_eq_true,
        not_exists, not_and, Decidable.not_not] at h1
      simp only [List.any_eq_true, not_exists, not_and, decide_eq_true_eq] at h2
      refine ⟨rfl, ⟨h1.1, fun row hrow => ?_⟩, fun row hrow v hv => ?_⟩
      · have := h1.2 row hrow
        simpa using this
      · have := h2 row hrow v hv
        omega

theorem solver_new_ok_props (b : SudokuBoard) (s : SudokuSolver)
    (h : SudokuSolver.new b = .ok s) :
    b.all_spaces_valid = true ∧ s.board = b ∧
    s.unsolved_spaces = b.get_unsolved_spaces ∧ s.solved_board = none := by
  unfold SudokuSolver.new at h
  by_cases hv : (!b.all_spaces_valid) = true
  · rw [if_pos hv] at h
    cases h
  · rw [if_neg hv] at h
    injection h with h
    subst h
    exact ⟨by simpa using hv, rfl, rfl, rfl⟩

/-- C1: soundness of the solver — for every Solver constructed (via
SudokuSolver::new, hence from a board passing all_spaces_valid) from a board
built by SudokuBoard::new, any board returned by solve() satisfies both
all_spaces_valid() and all_spaces_solved(), and every cell of the returned
board holds a value in [1,9]. -/
theorem C1_solve_sound (cfg : List (List Nat)) (b : SudokuBoard)
    (s : SudokuSolver) (fuel : Nat) (out : SudokuBoard) (s' : SudokuSolver)
    (hnew : SudokuBoard.new cfg = .ok b)
    (hsnew : SudokuSolver.new b = .ok s)
    (hsolve : s.solve fuel = some (.solved out, s')) :
    out.all_spaces_valid = true ∧ out.all_spaces_solved = true ∧
    (∀ row ∈ out.configuration, ∀ v ∈ row, 1 ≤ v ∧ v ≤ 9) := by
  obtain ⟨hcfg, h9, hle⟩ := new_ok_props cfg b hnew
  obtain ⟨hval, hsb, hsu, hsc⟩ := solver_new_ok_props b s hsnew
  unfold SudokuSolver.solve at hsolve
  rw [hsc] at hsolve
  cases hl : solveLoop s.unsolved_spaces fuel (initialState s.board) with
  | none =>
    rw [hl] at hsolve
    cases hsolve
  | some o =>
    rw [hl] at hsolve
    cases o with
    | solved bb =>
      injection hsolve with hsolve
      have ho : SolveOutcome.solved (SudokuBoard.copy bb) = .solved out :=
        congrArg Prod.fst hsolve
      injection ho with ho
      rw [SudokuBoard.copy_eq] at ho
      subst ho
      rw [hsb, hsu] at hl
      have hsound := solveLoop_sound b fuel (initialState b) bb
        (loopInv_initial b h9 hle hval) hl
      obtain ⟨ho9, hov, hoval, hosol⟩ := hsound
      refine ⟨hoval, hosol, ?_⟩
      rw [forall_cells bb ho9 (fun v => 1 ≤ v ∧ v ≤ 9)]
      intro r hr c hc
      have hne := (all_spaces_solved_iff bb ho9).mp hosol r hr c hc
      have hle9 := valuesLe9_cell bb ho9 hov r c hr hc
      omega
    | underflow =>
      injection hsolve with hsolve
      have ho : SolveOutcome.underflow = SolveOutcome.solved out :=
        congrArg Prod.fst hsolve
      cases ho
    | indexOutOfBounds =>
      injection hsolve with hsolve
      have ho : SolveOutcome.indexOutOfBounds = SolveOutcome.solved out :=
        congrArg Prod.fst hsolve
      cases ho

/-- Witness for C1 at the fully solved fixture. -/
theorem C1_solve_sound_witness :
    SudokuBoard.new fullCfg = .ok fullBoard ∧
    SudokuSolver.new fullBoard = .ok fullSolver ∧
    fullSolver.solve 1 = some (.solved fullBoard, fullSolverCached) ∧
    (fullBoard.all_spaces_valid = true ∧ fullBoard.all_spaces_solved = true ∧
      (∀ row ∈ fullBoard.configuration, ∀ v ∈ row, 1 ≤ v ∧ v ≤ 9)) :=
  ⟨rfl, rfl, rfl,
   C1_solve_sound fullCfg fullBoard fullSolver 1 fullBoard fullSolverCached rfl rfl rfl⟩

/-! ## Equivalence of the lib.rs and sudoku_solver.rs loops (C6) -/

theorem contains_dedup (l : List Nat) (v : Nat) :
    l.dedup.contains v = l.contains v := by
  by_cases hm : v ∈ l
  · rw [(contains_eq_true_iff _ _).mpr hm,
      (contains_eq_true_iff _ _).mpr (List.mem_dedup.mpr hm)]
  · have h1 : l.contains v = false := by
      rw [← Bool.not_eq_true]
      intro hc
      exact hm ((contains_eq_true_iff _ _).mp hc)
    have h2 : l.dedup.contains v = false := by
      rw [← Bool.not_eq_true]
      intro hc
      exact hm (List.mem_dedup.mp ((contains_eq_true_iff _ _).mp hc))
    rw [h1, h2]

theorem libValid_eq (us : List (Nat × Nat)) (st : SearchState) :
    Lib.libValid us st = stepValid us st := by
  unfold Lib.libValid stepValid Lib.libInvalid stepInvalid
  apply List.filter_congr
  intro v _
  rw [contains_dedup]

theorem libStep_eq_solveStep (us : List (Nat × Nat)) (st : SearchState) :
    Lib.libStep us st = solveStep us st := by
  unfold Lib.libStep solveStep
  rw [libValid_eq]
  cases hv : (stepValid us st).head? with
  | some v =>
    have hlen : 0 < (stepValid us st).length := by
      cases hl : stepValid us st with
      | nil => rw [hl] at hv; cases hv
      | cons a t => simp
    have hget : (stepValid us st).getD 0 0 = v := by
      rw [List.getD_eq_getElem?_getD, ← List.head?_eq_getElem?, hv]
      rfl
    rw [if_pos hlen, hget]
  | none =>
    have hlen : ¬(0 < (stepValid us st).length) := by
      cases hl : stepValid us st with
      | nil => simp [hl]
      | cons a t => rw [hl] at hv; cases hv
    rw [if_neg hlen]

theorem loopInv_solved_iff (B0 : SudokuBoard) (st : SearchState)
    (hinv : LoopInv B0 B0.get_unsolved_spaces st) :
    st.board.all_spaces_solved = true ↔
      ¬(st.idx < B0.get_unsolved_spaces.length) := by
  obtain ⟨hlen, h9, hv9, hval, hbefore, hafter, hlast, hframe⟩ := hinv
  constructor
  · intro hsol hg
    rw [all_spaces_solved_iff _ h9] at hsol
    rcases Nat.lt_or_ge (st.idx + 1) B0.get_unsolved_spaces.length with hlt | hge
    · obtain ⟨hr, hc, _⟩ := usAt_facts B0 (st.idx + 1) hlt
      exact (hsol _ hr _ hc) (hafter (st.idx + 1) (by omega) hlt)
    · have hle : st.idx + 1 = B0.get_unsolved_spaces.length := by omega
      obtain ⟨hr, hc, _⟩ := usAt_facts B0 st.idx hg
      exact (hsol _ hr _ hc) (hlast hle)
  · intro hg
    rw [all_spaces_solved_iff _ h9]
    intro r hr c hc
    by_cases hmem : (r, c) ∈ B0.get_unsolved_spaces
    · obtain ⟨j, hj, hje⟩ := List.mem_iff_getElem.mp hmem
      have hja : usAt B0.get_unsolved_spaces j = (r, c) := by
        unfold usAt
        rw [List.getD_eq_getElem _ (0, 0) hj, hje]
      have := hbefore j (by omega)
      rw [hja] at this
      exact this
    · rw [hframe r c hr hc hmem]
      intro h0
      exact hmem ((mem_get_unsolved_spaces B0 (r, c)).mpr ⟨hr, hc, h0⟩)

theorem libLoop_eq_solveLoop (B0 : SudokuBoard) (fuel : Nat) (st : SearchState)
    (hinv : LoopInv B0 B0.get_unsolved_spaces st) :
    Lib.libLoop B0.get_unsolved_spaces fuel st =
      solveLoop B0.get_unsolved_spaces fuel st := by
  induction fuel generalizing st with
  | zero =>
    unfold Lib.libLoop solveLoop
    by_cases hg : st.idx < B0.get_unsolved_spaces.length
    · have hsolf : st.board.all_spaces_solved = false := by
        cases hs : st.board.all_spaces_solved with
        | false => rfl
        | true => exact absurd hg ((loopInv_solved_iff B0 st hinv).mp hs)
      rw [if_neg (by rw [hsolf]; simp), if_pos hg]
    · have hsolt : st.board.all_spaces_solved = true :=
        (loopInv_solved_iff B0 st hinv).mpr hg
      rw [if_pos hsolt, if_neg hg]
  | succ k ih =>
    unfold Lib.libLoop solveLoop
    by_cases hg : st.idx < B0.get_unsolved_spaces.length
    · have hsolf : st.board.all_spaces_solved = false := by
        cases hs : st.board.all_spaces_solved with
        | false => rfl
        | true => exact absurd hg ((loopInv_solved_iff B0 st hinv).mp hs)
      rw [if_neg (by rw [hsolf]; simp), if_pos hg]
      dsimp only
      rw [if_pos hg]
      rw [libStep_eq_solveStep]
      cases hstep : solveStep B0.get_unsolved_spaces st with
      | underflow => rfl
      | next st' => exact ih st' (loopInv_preserved B0 st st' hinv hg hstep)
    · have hsolt : st.board.all_spaces_solved = true :=
        (loopInv_solved_iff B0 st hinv).mpr hg
      rw [if_pos hsolt, if_neg hg]

theorem lib_new_ok_props (cfg : List (List Nat)) (t : Lib.SudokuSolver)
    (h : Lib.SudokuSolver.new cfg = .ok t) :
    t.sudoku_puzzle = ⟨cfg⟩ ∧
    t.unsolved_spaces = (⟨cfg⟩ : SudokuBoard).get_unsolved_spaces ∧
    t.solved_board = none := by
  unfold Lib.SudokuSolver.new at h
  by_cases h1 : (cfg.length != 9 || cfg.any (fun row => row.length != 9)) = true
  · rw [if_pos h1] at h
    cases h
  · rw [if_neg h1] at h
    dsimp only at h
    by_cases h2 : (!(⟨cfg⟩ : SudokuBoard).all_spaces_valid) = true
    · rw [if_pos h2] at h
      cases h
    · rw [if_neg h2] at h
      injection h with h
      subst h
      exact ⟨rfl, rfl, rfl⟩

/-- C6: refinement between the two solver iterations — for any starting grid
accepted by SudokuBoard::new together with SudokuSolver::new
(sudoku_solver.rs) and by lib.rs's SudokuSolver::new, the two backtracking
loops agree step for step at every fuel amount (in particular lib.rs's exit
test, the working board having no zero cell, coincides with
sudoku_solver.rs's test unsolved_spaces_index == unsolved_spaces.len() at
every reachable loop state), and first calls to the two solve() functions
return boards with equal configurations. -/
theorem C6_lib_solver_refinement (cfg : List (List Nat)) (b : SudokuBoard)
    (s : SudokuSolver) (t : Lib.SudokuSolver)
    (hnew : SudokuBoard.new cfg = .ok b)
    (hsnew : SudokuSolver.new b = .ok s)
    (hlnew : Lib.SudokuSolver.new cfg = .ok t) :
    t.unsolved_spaces = s.unsolved_spaces ∧
    (∀ fuel, Lib.libLoop s.unsolved_spaces fuel (initialState b) =
      solveLoop s.unsolved_spaces fuel (initialState b)) ∧
    (∀ st, LoopInv b b.get_unsolved_spaces st →
      (st.board.all_spaces_solved = true ↔
        ¬(st.idx < b.get_unsolved_spaces.length))) ∧
    (∀ fuel fuel' o o' t2 s2,
      t.solve fuel = some (.solved o, t2) → s.solve fuel' = some (.solved o', s2) →
      o.configuration = o'.configuration) := by
  obtain ⟨hcfg, h9, hle⟩ := new_ok_props cfg b hnew
  have hb : b = ⟨cfg⟩ := by
    cases b
    simpa using hcfg
  obtain ⟨hval, hsb, hsu, hsc⟩ := solver_new_ok_props b s hsnew
  obtain ⟨htb, htu, htc⟩ := lib_new_ok_props cfg t hlnew
  have hts : t.sudoku_puzzle = b := by rw [htb, hb]
  have htu' : t.unsolved_spaces = s.unsolved_spaces := by rw [htu, hsu, hb]
  have hinv0 := loopInv_initial b h9 hle hval
  refine ⟨htu', ?_, ?_, ?_⟩
  · intro fuel
    rw [hsu]
    exact libLoop_eq_solveLoop b fuel (initialState b) hinv0
  · intro st hinv
    exact loopInv_solved_iff b st hinv
  · intro fuel fuel' o o' t2 s2 ht hs
    unfold Lib.SudokuSolver.solve at ht
    rw [htc] at ht
    rw [hts, htu', hsu] at ht
    rw [libLoop_eq_solveLoop b fuel (initialState b) hinv0] at ht
    unfold SudokuSolver.solve at hs
    rw [hsc] at hs
    rw [hsb, hsu] at hs
    cases hl : solveLoop b.get_unsolved_spaces fuel (initialState b) with
    | none =>
      rw [hl] at ht
      cases ht
    | some r =>
      rw [hl] at ht
      cases r with
      | solved bo =>
        injection ht with ht
        have ho : SolveOutcome.solved (SudokuBoard.copy bo) = .solved o :=
          congrArg Prod.fst ht
        injection ho with ho
        rw [SudokuBoard.copy_eq] at ho
        subst ho
        cases hl' : solveLoop b.get_unsolved_spaces fuel' (initialState b) with
        | none =>
          rw [hl'] at hs
          cases hs
        | some r' =>
          rw [hl'] at hs
          cases r' with
          | solved bo' =>
            injection hs with hs
            have ho' : SolveOutcome.solved (SudokuBoard.copy bo') = .solved o' :=
              congrArg Prod.fst hs
            injection ho' with ho'
            rw [SudokuBoard.copy_eq] at ho'
            subst ho'
            rcases Nat.le_total fuel fuel' with hle' | hle'
            · have := solveLoop_mono b.get_unsolved_spaces fuel fuel' hle' _ _ hl
              rw [this] at hl'
              injection hl' with hl'
              injection hl' with hl'
              rw [hl']
            · have := solveLoop_mono b.get_unsolved_spaces fuel' fuel hle' _ _ hl'
              rw [this] at hl
              injection hl with hl
              injection hl with hl
              rw [hl]
          | underflow =>
            injection hs with hs
            have he : SolveOutcome.underflow = SolveOutcome.solved o' :=
              congrArg Prod.fst hs
            cases he
          | indexOutOfBounds =>
            injection hs with hs
            have he : SolveOutcome.indexOutOfBounds = SolveOutcome.solved o' :=
              congrArg Prod.fst hs
            cases he
      | underflow =>
        injection ht with ht
        have he : SolveOutcome.underflow = SolveOutcome.solved o :=
          congrArg Prod.fst ht
        cases he
      | indexOutOfBounds =>
        injection ht with ht
        have he : SolveOutcome.indexOutOfBounds = SolveOutcome.solved o :=
          congrArg Prod.fst ht
        cases he

/-- Witness for C6 at the fully solved fixture. -/
theorem C6_lib_solver_refinement_witness :
    SudokuBoard.new fullCfg = .ok fullBoard ∧
    SudokuSolver.new fullBoard = .ok fullSolver ∧
    Lib.SudokuSolver.new fullCfg = .ok fullLibSolver ∧
    fullLibSolver.unsolved_spaces = fullSolver.unsolved_spaces :=
  ⟨rfl, rfl, rfl,
   (C6_lib_solver_refinement fullCfg fullBoard fullSolver fullLibSolver rfl rfl rfl).1⟩

/-! ## Counting and injectivity of nonzero values within a valid group -/

/-- A value sitting at two distinct positions of a list occurs at least
twice in it. -/
theorem two_le_count_of_get (l : List Nat) (i j : Nat) (hi : i < l.length)
    (hj : j < l.length) (hne : i ≠ j) (v : Nat) (h1 : l.get ⟨i, hi⟩ = v)
    (h2 : l.get ⟨j, hj⟩ = v) : 2 ≤ l.count v := by
  have key : ∀ a b : Nat, ∀ hab : a < b, ∀ hb : b < l.length,
      l.get ⟨a, lt_trans hab hb⟩ = v → l.get ⟨b, hb⟩ = v → 2 ≤ l.count v := by
    intro a b hab hb ha hbv
    have hmem1 : v ∈ l.take (a + 1) := by
      rw [List.mem_iff_getElem?]
      refine ⟨a, ?_⟩
      rw [List.getElem?_take, if_pos (Nat.lt_succ_self a),
        List.getElem?_eq_getElem (lt_trans hab hb)]
      exact congrArg some ha
    have hmem2 : v ∈ l.drop (a + 1) := by
      rw [List.mem_iff_getElem?]
      refine ⟨b - (a + 1), ?_⟩
      rw [List.getElem?_drop]
      have hidx : a + 1 + (b - (a + 1)) = b := by omega
      rw [hidx, List.getElem?_eq_getElem hb]
      exact congrArg some hbv
    have c1 : 0 < (l.take (a + 1)).count v := List.count_pos_iff.mpr hmem1
    have c2 : 0 < (l.drop (a + 1)).count v := List.count_pos_iff.mpr hmem2
    have hsplit : l.count v = (l.take (a + 1)).count v + (l.drop (a + 1)).count v := by
      conv_lhs => rw [← List.take_append_drop (a + 1) l]
      rw [List.count_append]
    omega
  rcases Nat.lt_or_gt_of_ne hne with h | h
  · exact key i j h hj h1 h2
  · exact key j i h hi h2 h1

/-- In a list whose nonzero entries are duplicate-free, the same nonzero
value cannot appear at two distinct positions. -/
theorem nonzero_get_inj (l : List Nat) (hnd : (nonzeroValues l).Nodup)
    (i j : Nat) (hi : i < l.length) (hj : j < l.length) (hne : i ≠ j)
    (h0 : l.get ⟨i, hi⟩ ≠ 0) (heq : l.get ⟨i, hi⟩ = l.get ⟨j, hj⟩) : False := by
  have hcount2 : 2 ≤ l.count (l.get ⟨i, hi⟩) :=
    two_le_count_of_get l i j hi hj hne _ rfl heq.symm
  have hfilter : (nonzeroValues l).count (l.get ⟨i, hi⟩) = l.count (l.get ⟨i, hi⟩) := by
    unfold nonzeroValues
    exact List.count_filter (by simpa using h0)
  have hle := List.nodup_iff_count_le_one.mp hnd (l.get ⟨i, hi⟩)
  rw [hfilter] at hle
  omega

/-- Membership in the nonzero values of a row names a concrete column. -/
theorem mem_nonzero_row (b : SudokuBoard) (r v : Nat)
    (h : v ∈ nonzeroValues (b.get_row r)) :
    ∃ c, c < 9 ∧ b.cell r c = v ∧ v ≠ 0 := by
  unfold nonzeroValues at h
  rw [List.mem_filter] at h
  obtain ⟨hmem, hv0⟩ := h
  obtain ⟨c, hc, hce⟩ := List.mem_iff_getElem.mp hmem
  have hc9 : c < 9 := by rw [length_get_row] at hc; exact hc
  refine ⟨c, hc9, ?_, by simpa using hv0⟩
  rw [← hce, getElem_get_row]

/-- Membership in the nonzero values of a column names a concrete row. -/
theorem mem_nonzero_column (b : SudokuBoard) (c v : Nat)
    (h : v ∈ nonzeroValues (b.get_column c)) :
    ∃ r, r < 9 ∧ b.cell r c = v ∧ v ≠ 0 := by
  unfold nonzeroValues at h
  rw [List.mem_filter] at h
  obtain ⟨hmem, hv0⟩ := h
  obtain ⟨r, hr, hre⟩ := List.mem_iff_getElem.mp hmem
  have hr9 : r < 9 := by rw [length_get_column] at hr; exact hr
  refine ⟨r, hr9, ?_, by simpa using hv0⟩
  rw [← hre, getElem_get_column]

/-- Membership in the nonzero values of a nonet names a concrete in-nonet
position. -/
theorem mem_nonzero_nonet (b : SudokuBoard) (k v : Nat)
    (h : v ∈ nonzeroValues (b.get_nonet k)) :
    ∃ p, p < 9 ∧
      b.cell ((nonetStart k).1 + p / 3) ((nonetStart k).2 + p % 3) = v ∧ v ≠ 0 := by
  unfold nonzeroValues at h
  rw [List.mem_filter] at h
  obtain ⟨hmem, hv0⟩ := h
  obtain ⟨p, hp, hpe⟩ := List.mem_iff_getElem.mp hmem
  have hp9 : p < 9 := by rw [length_get_nonet] at hp; exact hp
  refine ⟨p, hp9, ?_, by simpa using hv0⟩
  rw [← hpe, getElem_get_nonet]

/-- On a board passing all_spaces_valid, equal nonzero values in one row sit
in the same column. -/
theorem valid_row_value_inj (b : SudokuBoard) (hval : b.all_spaces_valid = true)
    (r c1 c2 : Nat) (hr : r < 9) (hc1 : c1 < 9) (hc2 : c2 < 9)
    (h0 : b.cell r c1 ≠ 0) (heq : b.cell r c1 = b.cell r c2) : c1 = c2 := by
  by_contra hne
  have hnd := ((all_spaces_valid_iff b).mp hval).1 r hr
  apply nonzero_get_inj (b.get_row r) hnd c1 c2
    (by rw [length_get_row]; exact hc1) (by rw [length_get_row]; exact hc2) hne
  · rw [List.get_eq_getElem, getElem_get_row]
    exact h0
  · rw [List.get_eq_getElem, List.get_eq_getElem, getElem_get_row, getElem_get_row]
    exact heq

/-- On a board passing all_spaces_valid, equal nonzero values in one column
sit in the same row. -/
theorem valid_column_value_inj (b : SudokuBoard) (hval : b.all_spaces_valid = true)
    (c r1 r2 : Nat) (hc : c < 9) (hr1 : r1 < 9) (hr2 : r2 < 9)
    (h0 : b.cell r1 c ≠ 0) (heq : b.cell r1 c = b.cell r2 c) : r1 = r2 := by
  by_contra hne
  have hnd := ((all_spaces_valid_iff b).mp hval).2.1 c hc
  apply nonzero_get_inj (b.get_column c) hnd r1 r2
    (by rw [length_get_column]; exact hr1) (by rw [length_get_column]; exact hr2) hne
  · rw [List.get_eq_getElem, getElem_get_column]
    exact h0
  · rw [List.get_eq_getElem, List.get_eq_getElem, getElem_get_column, getElem_get_column]
    exact heq

/-- On a board passing all_spaces_valid, equal nonzero values in one nonet
sit in the same cell. -/
theorem valid_nonet_value_inj (b : SudokuBoard) (hval : b.all_spaces_valid = true)
    (r1 c1 r2 c2 : Nat) (hr1 : r1 < 9) (hc1 : c1 < 9) (hr2 : r2 < 9) (hc2 : c2 < 9)
    (hk : nonetIndexOf r1 c1 = nonetIndexOf r2 c2)
    (h0 : b.cell r1 c1 ≠ 0) (heq : b.cell r1 c1 = b.cell r2 c2) :
    r1 = r2 ∧ c1 = c2 := by
  have hk9 := nonetIndexOf_lt r1 hr1 c1 hc1
  have hnd := ((all_spaces_valid_iff b).mp hval).2.2 (nonetIndexOf r1 c1) hk9
  obtain ⟨he1r, he1c, hp1lt⟩ := nonetPos_facts r1 hr1 c1 hc1
  obtain ⟨he2r, he2c, hp2lt⟩ := nonetPos_facts r2 hr2 c2 hc2
  by_contra hne
  have hpne : 3 * (r1 % 3) + c1 % 3 ≠ 3 * (r2 % 3) + c2 % 3 := by
    intro hpp
    apply hne
    constructor
    · rw [← he1r, ← he2r, ← hk, hpp]
    · rw [← he1c, ← he2c, ← hk, hpp]
  apply nonzero_get_inj (b.get_nonet (nonetIndexOf r1 c1)) hnd
    (3 * (r1 % 3) + c1 % 3) (3 * (r2 % 3) + c2 % 3)
    (by rw [length_get_nonet]; exact hp1lt) (by rw [length_get_nonet]; exact hp2lt) hpne
  · rw [List.get_eq_getElem, getElem_get_nonet, he1r, he1c]
    exact h0
  · rw [List.get_eq_getElem, List.get_eq_getElem, getElem_get_nonet, getElem_get_nonet,
      he1r, he1c, hk, he2r, he2c]
    exact heq

/-! ## Congruence: row, column, nonet and forbidden-context reads stay below
coordinate 9 -/

/-- In-nonet positions address coordinates below 9. -/
theorem nonetStart_add_lt : ∀ k < 9, ∀ p < 9,
    (nonetStart k).1 + p / 3 < 9 ∧ (nonetStart k).2 + p % 3 < 9 := by decide

/-- get_row reads only cells of its row at columns below 9. -/
theorem get_row_congr (b1 b2 : SudokuBoard) (r : Nat)
    (h : ∀ c, c < 9 → b1.cell r c = b2.cell r c) :
    b1.get_row r = b2.get_row r := by
  unfold SudokuBoard.get_row
  apply List.map_congr_left
  intro c hc
  exact h c (List.mem_range.mp hc)

/-- get_column reads only cells of its column at rows below 9. -/
theorem get_column_congr (b1 b2 : SudokuBoard) (c : Nat)
    (h : ∀ r, r < 9 → b1.cell r c = b2.cell r c) :
    b1.get_column c = b2.get_column c := by
  unfold SudokuBoard.get_column
  apply List.map_congr_left
  intro r hr
  exact h r (List.mem_range.mp hr)

/-- get_nonet reads only cells with both coordinates below 9. -/
theorem get_nonet_congr (b1 b2 : SudokuBoard) (k : Nat) (hk : k < 9)
    (h : ∀ r c, r < 9 → c < 9 → b1.cell r c = b2.cell r c) :
    b1.get_nonet k = b2.get_nonet k := by
  rw [get_nonet_eq_map, get_nonet_eq_map]
  apply List.map_congr_left
  intro p hp
  obtain ⟨h1, h2⟩ := nonetStart_add_lt k hk p (List.mem_range.mp hp)
  exact h _ _ h1 h2

/-- The forbidden-context computation reads only cells with coordinates
below 9. -/
theorem contextInvalid_congr (b1 b2 : SudokuBoard) (r c : Nat)
    (hr : r < 9) (hc : c < 9)
    (h : ∀ x y, x < 9 → y < 9 → b1.cell x y = b2.cell x y) :
    contextInvalid b1 r c = contextInvalid b2 r c := by
  unfold contextInvalid
  rw [get_row_congr b1 b2 r (fun y hy => h r y hr hy),
    get_column_congr b1 b2 c (fun x hx => h x c hx hc),
    get_nonet_congr b1 b2 _ (nonetIndexOf_lt r hr c hc) h]

/-! ## The level board: pointwise description and agreement lemmas -/

/-- Zeroing a list of in-range cells, pointwise. -/
theorem cell_foldZero (l : List (Nat × Nat)) (b : SudokuBoard) (h9 : b.Is9x9)
    (hco : ∀ p ∈ l, p.1 < 9 ∧ p.2 < 9) (r c : Nat) :
    (l.foldl (fun acc p => acc.setCell p.1 p.2 0) b).cell r c =
      if (r, c) ∈ l then 0 else b.cell r c := by
  induction l generalizing b with
  | nil => rw [List.foldl_nil, if_neg (List.not_mem_nil (r, c))]
  | cons q t ih =>
    rw [List.foldl_cons]
    have hq := hco q (List.mem_cons_self q t)
    have h9b : (b.setCell q.1 q.2 0).Is9x9 := is9x9_setCell b h9 _ _ _ hq.1
    rw [ih (b.setCell q.1 q.2 0) h9b (fun p hp => hco p (List.mem_cons_of_mem q hp))]
    by_cases hmem : (r, c) ∈ t
    · rw [if_pos hmem, if_pos (List.mem_cons_of_mem q hmem)]
    · rw [if_neg hmem]
      rcases eq_or_ne q (r, c) with rfl | hne
      · rw [if_pos (List.mem_cons_self _ _)]
        exact cell_setCell_self b h9 r c 0 hq.1 hq.2
      · have hnotm : (r, c) ∉ q :: t := by
          intro hm
          rcases List.mem_cons.mp hm with hm1 | hm1
          · exact hne hm1.symm
          · exact hmem hm1
        rw [if_neg hnotm]
        exact cell_setCell_ne b q.1 q.2 0 r c (fun he => hne he.symm)

/-- Cells of the level-j board: blank from position j on, the working board
elsewhere. -/
theorem cell_levelBoard (B0 : SudokuBoard) (st : SearchState) (j : Nat)
    (h9 : st.board.Is9x9) (r c : Nat) :
    (levelBoard B0.get_unsolved_spaces st j).cell r c =
      if (r, c) ∈ B0.get_unsolved_spaces.drop j then 0 else st.board.cell r c := by
  unfold levelBoard
  exact cell_foldZero _ st.board h9
    (fun p hp => by
      have h := (mem_get_unsolved_spaces B0 p).mp (List.mem_of_mem_drop hp)
      exact ⟨h.1, h.2.1⟩) r c

/-- The cursor coordinate at position k is among the spaces from position j
on whenever j ≤ k. -/
theorem usAt_mem_drop (us : List (Nat × Nat)) (j k : Nat) (hjk : j ≤ k)
    (hk : k < us.length) : usAt us k ∈ us.drop j := by
  rw [List.mem_iff_getElem?]
  refine ⟨k - j, ?_⟩
  rw [List.getElem?_drop]
  have hidx : j + (k - j) = k := by omega
  rw [hidx, List.getElem?_eq_getElem hk]
  unfold usAt
  rw [List.getD_eq_getElem us (0, 0) hk]

/-- A member of the tail from position j sits at a position that is at
least j. -/
theorem mem_drop_pos (us : List (Nat × Nat)) (j : Nat) (p : Nat × Nat)
    (h : p ∈ us.drop j) : ∃ k, j ≤ k ∧ k < us.length ∧ usAt us k = p := by
  rw [List.mem_iff_getElem?] at h
  obtain ⟨m, hm⟩ := h
  rw [List.getElem?_drop] at hm
  have hlt : j + m < us.length := by
    by_contra hge
    rw [List.getElem?_eq_none (by omega)] at hm
    cases hm
  refine ⟨j + m, by omega, hlt, ?_⟩
  rw [List.getElem?_eq_getElem hlt] at hm
  injection hm with hm
  unfold usAt
  rw [List.getD_eq_getElem us (0, 0) hlt]
  exact hm

/-- A member of the list that is missing from the tail from position j sits
at a position strictly below j. -/
theorem mem_not_drop_pos (us : List (Nat × Nat)) (j : Nat) (p : Nat × Nat)
    (hmem : p ∈ us) (hnot : p ∉ us.drop j) :
    ∃ k, k < j ∧ k < us.length ∧ usAt us k = p := by
  obtain ⟨m, hm, hme⟩ := List.mem_iff_getElem.mp hmem
  have husm : usAt us m = p := by
    unfold usAt
    rw [List.getD_eq_getElem us (0, 0) hm]
    exact hme
  refine ⟨m, ?_, hm, husm⟩
  by_contra hge
  apply hnot
  rw [← husm]
  exact usAt_mem_drop us j m (by omega) hm

/-- Under the loop invariant, zeroing the cursor cell in the working board
produces exactly the level-idx board pointwise: every space from the cursor
on is blank in both. -/
theorem cell_stepZeroed_eq_levelBoard (B0 : SudokuBoard) (st : SearchState)
    (hinv : LoopInv B0 B0.get_unsolved_spaces st)
    (hguard : st.idx < B0.get_unsolved_spaces.length) :
    ∀ r c, r < 9 → c < 9 →
      (stepZeroed B0.get_unsolved_spaces st).cell r c =
        (levelBoard B0.get_unsolved_spaces st st.idx).cell r c := by
  obtain ⟨hlen, h9, hv9, hval, hbefore, hafter, hlast, hframe⟩ := hinv
  intro r c hr hc
  rw [cell_levelBoard B0 st st.idx h9 r c]
  by_cases hmem : (r, c) ∈ B0.get_unsolved_spaces.drop st.idx
  · rw [if_pos hmem]
    obtain ⟨k, hk1, hk2, hke⟩ := mem_drop_pos _ _ _ hmem
    rcases eq_or_ne k st.idx with rfl | hkn
    · have h1 : (usAt B0.get_unsolved_spaces st.idx).1 = r := congrArg Prod.fst hke
      have h2 : (usAt B0.get_unsolved_spaces st.idx).2 = c := congrArg Prod.snd hke
      rw [← h1, ← h2]
      exact cell_setCell_self st.board h9 _ _ 0
        (usAt_facts B0 st.idx hk2).1 (usAt_facts B0 st.idx hk2).2.1
    · have hkgt : st.idx < k := by omega
      have hne1 : (r, c) ≠ usAt B0.get_unsolved_spaces st.idx := by
        intro he
        exact (nodup_getD_ne _ (nodup_get_unsolved_spaces B0) k st.idx hk2 hguard
          (by omega) (0, 0)) (hke.trans he)
      have hz : (stepZeroed B0.get_unsolved_spaces st).cell r c = st.board.cell r c :=
        cell_setCell_ne st.board _ _ 0 r c (fun he => hne1 he)
      rw [hz]
      have h1 : (usAt B0.get_unsolved_spaces k).1 = r := congrArg Prod.fst hke
      have h2 : (usAt B0.get_unsolved_spaces k).2 = c := congrArg Prod.snd hke
      rw [← h1, ← h2]
      exact hafter k hkgt hk2
  · rw [if_neg hmem]
    have hne1 : (r, c) ≠ usAt B0.get_unsolved_spaces st.idx := by
      intro he
      apply hmem
      rw [he]
      exact usAt_mem_drop _ st.idx st.idx (le_refl _) hguard
    exact cell_setCell_ne st.board _ _ 0 r c (fun he => hne1 he)

/-- At the cursor, the forbidden context of the zeroed working board equals
the forbidden context of the level board, so the candidate filter of solve()
decides exactly ContextValidAt. -/
theorem contextInvalid_stepZeroed (B0 : SudokuBoard) (st : SearchState)
    (hinv : LoopInv B0 B0.get_unsolved_spaces st)
    (hguard : st.idx < B0.get_unsolved_spaces.length) :
    contextInvalid (stepZeroed B0.get_unsolved_spaces st)
        (usAt B0.get_unsolved_spaces st.idx).1 (usAt B0.get_unsolved_spaces st.idx).2 =
      contextInvalid (levelBoard B0.get_unsolved_spaces st st.idx)
        (usAt B0.get_unsolved_spaces st.idx).1 (usAt B0.get_unsolved_spaces st.idx).2 :=
  contextInvalid_congr _ _ _ _ (usAt_facts B0 st.idx hguard).1
    (usAt_facts B0 st.idx hguard).2.1 (cell_stepZeroed_eq_levelBoard B0 st hinv hguard)

/-- ContextValidAt at level j only reads cells off the cleared tail, so board
changes confined to the tail leave it unchanged. -/
theorem contextValidAt_congr (B0 : SudokuBoard) (st st2 : SearchState) (j : Nat)
    (h9 : st.board.Is9x9) (h92 : st2.board.Is9x9)
    (hj : j < B0.get_unsolved_spaces.length)
    (hfr : ∀ r c, r < 9 → c < 9 → (r, c) ∉ B0.get_unsolved_spaces.drop j →
      st2.board.cell r c = st.board.cell r c) (v : Nat) :
    ContextValidAt B0.get_unsolved_spaces st2 j v ↔
      ContextValidAt B0.get_unsolved_spaces st j v := by
  unfold ContextValidAt
  have hctx : contextInvalid (levelBoard B0.get_unsolved_spaces st2 j)
      (usAt B0.get_unsolved_spaces j).1 (usAt B0.get_unsolved_spaces j).2 =
      contextInvalid (levelBoard B0.get_unsolved_spaces st j)
      (usAt B0.get_unsolved_spaces j).1 (usAt B0.get_unsolved_spaces j).2 := by
    apply contextInvalid_congr _ _ _ _ (usAt_facts B0 j hj).1 (usAt_facts B0 j hj).2.1
    intro r c hr hc
    rw [cell_levelBoard B0 st2 j h92 r c, cell_levelBoard B0 st j h9 r c]
    by_cases hmem : (r, c) ∈ B0.get_unsolved_spaces.drop j
    · rw [if_pos hmem, if_pos hmem]
    · rw [if_neg hmem, if_neg hmem]
      exact hfr r c hr hc hmem
  rw [hctx]

/-! ## The candidate scan takes the least not-yet-forbidden value -/

/-- The head of a filtered strictly ascending list rejects every smaller
element of the list. -/
theorem filter_head_lowest (l : List Nat) (p : Nat → Bool) (v : Nat)
    (hsort : l.Pairwise (fun a b => a < b)) (hh : (l.filter p).head? = some v) :
    ∀ u ∈ l, u < v → p u = false := by
  induction l with
  | nil =>
    intro u hu
    cases hu
  | cons a t ih =>
    rw [List.filter_cons] at hh
    rw [List.pairwise_cons] at hsort
    intro u hu hlt
    by_cases hpa : p a = true
    · rw [if_pos hpa, List.head?_cons] at hh
      injection hh with hh
      subst hh
      rcases List.mem_cons.mp hu with rfl | hut
      · omega
      · have := hsort.1 u hut
        omega
    · rw [if_neg hpa] at hh
      rcases List.mem_cons.mp hu with rfl | hut
      · simpa using hpa
      · exact ih hsort.2 hh u hut hlt

/-- If the candidate scan of solve() settles on first_value, every smaller
value of [1,9] is in the forbidden set. -/
theorem stepValid_head_min (us : List (Nat × Nat)) (st : SearchState) (v : Nat)
    (h : (stepValid us st).head? = some v) :
    ∀ u, 1 ≤ u → u ≤ 9 → u < v → u ∈ stepInvalid us st := by
  intro u h1 h9 hlt
  have hsort : allValueCandidates.Pairwise (fun a b => a < b) := by decide
  have hf := filter_head_lowest allValueCandidates
    (fun value => !((stepInvalid us st).contains value)) v hsort h
    u ((mem_allValueCandidates u).mpr ⟨h1, h9⟩) hlt
  have hcont : (stepInvalid us st).contains u = true := by simpa using hf
  exact (contains_eq_true_iff _ u).mp hcont

/-! ## The largest attempted value -/

theorem maxAtt_lt (l : List Nat) (v : Nat) (hv : 0 < v) (h : ∀ u ∈ l, u < v) :
    maxAtt l < v := by
  induction l with
  | nil => exact hv
  | cons a t ih =>
    have hstep : maxAtt (a :: t) = max a (maxAtt t) := rfl
    rw [hstep]
    exact Nat.max_lt.mpr ⟨h a (List.mem_cons_self a t),
      ih (fun u hu => h u (List.mem_cons_of_mem a hu))⟩

theorem maxAtt_le (l : List Nat) (n : Nat) (h : ∀ u ∈ l, u ≤ n) : maxAtt l ≤ n := by
  induction l with
  | nil => exact Nat.zero_le n
  | cons a t ih =>
    have hstep : maxAtt (a :: t) = max a (maxAtt t) := rfl
    rw [hstep]
    exact Nat.max_le.mpr ⟨h a (List.mem_cons_self a t),
      ih (fun u hu => h u (List.mem_cons_of_mem a hu))⟩

/-- When the list contains a greatest element, maxAtt is that element. -/
theorem maxAtt_eq_of_mem_max (l : List Nat) (m : Nat) (hm : m ∈ l)
    (hmax : ∀ u ∈ l, u ≤ m) : maxAtt l = m := by
  have h1 : maxAtt l ≤ m := maxAtt_le l m hmax
  have h2 : m ≤ maxAtt l := by
    clear h1 hmax
    induction l with
    | nil => cases hm
    | cons a t ih =>
      have hstep : maxAtt (a :: t) = max a (maxAtt t) := rfl
      rw [hstep]
      rcases List.mem_cons.mp hm with rfl | ht
      · exact Nat.le_max_left _ _
      · exact le_trans (ih ht) (Nat.le_max_right _ _)
  omega

/-! ## The solution value at the cursor is always placeable -/

/-- Every nonzero cell of the level board carries the corresponding value of
any solution W that extends the clues and matches the placements below the
cursor. -/
theorem cell_levelBoard_agrees (B0 W : SudokuBoard) (st : SearchState)
    (hW : ExtendsClues B0 W)
    (hinv : LoopInv B0 B0.get_unsolved_spaces st)
    (hagree : ∀ k, k < st.idx →
      W.cell (usAt B0.get_unsolved_spaces k).1 (usAt B0.get_unsolved_spaces k).2 =
        st.board.cell (usAt B0.get_unsolved_spaces k).1
          (usAt B0.get_unsolved_spaces k).2) :
    ∀ r c, r < 9 → c < 9 →
      (levelBoard B0.get_unsolved_spaces st st.idx).cell r c ≠ 0 →
      (levelBoard B0.get_unsolved_spaces st st.idx).cell r c = W.cell r c := by
  obtain ⟨hlen, h9, hv9, hval, hbefore, hafter, hlast, hframe⟩ := hinv
  intro r c hr hc hnz
  rw [cell_levelBoard B0 st st.idx h9 r c] at hnz ⊢
  by_cases hmem : (r, c) ∈ B0.get_unsolved_spaces.drop st.idx
  · rw [if_pos hmem] at hnz
    exact absurd rfl hnz
  · rw [if_neg hmem] at hnz ⊢
    by_cases hus : (r, c) ∈ B0.get_unsolved_spaces
    · obtain ⟨k, hk1, hk2, hke⟩ := mem_not_drop_pos _ _ _ hus hmem
      have h1 : (usAt B0.get_unsolved_spaces k).1 = r := congrArg Prod.fst hke
      have h2 : (usAt B0.get_unsolved_spaces k).2 = c := congrArg Prod.snd hke
      rw [← h1, ← h2]
      exact (hagree k hk1).symm
    · have hB0 : B0.cell r c ≠ 0 := by
        intro h0
        exact hus ((mem_get_unsolved_spaces B0 (r, c)).mpr ⟨hr, hc, h0⟩)
      rw [hframe r c hr hc hus]
      exact (hW.2.2.2.2 r c hr hc hB0).symm

/-- The solution's value at the cursor never collides with the level-idx
context: it is a placeable candidate there. -/
theorem solution_not_forbidden (B0 W : SudokuBoard) (st : SearchState)
    (hW : ExtendsClues B0 W)
    (hinv : LoopInv B0 B0.get_unsolved_spaces st)
    (hguard : st.idx < B0.get_unsolved_spaces.length)
    (hagree : ∀ k, k < st.idx →
      W.cell (usAt B0.get_unsolved_spaces k).1 (usAt B0.get_unsolved_spaces k).2 =
        st.board.cell (usAt B0.get_unsolved_spaces k).1
          (usAt B0.get_unsolved_spaces k).2) :
    ContextValidAt B0.get_unsolved_spaces st st.idx
      (W.cell (usAt B0.get_unsolved_spaces st.idx).1
        (usAt B0.get_unsolved_spaces st.idx).2) := by
  have hr9 := (usAt_facts B0 st.idx hguard).1
  have hc9 := (usAt_facts B0 st.idx hguard).2.1
  have h9 : st.board.Is9x9 := hinv.2.1
  have hagg := cell_levelBoard_agrees B0 W st hW hinv hagree
  have hL0 : (levelBoard B0.get_unsolved_spaces st st.idx).cell
      (usAt B0.get_unsolved_spaces st.idx).1
      (usAt B0.get_unsolved_spaces st.idx).2 = 0 := by
    rw [cell_levelBoard B0 st st.idx h9]
    rw [if_pos (show ((usAt B0.get_unsolved_spaces st.idx).1,
        (usAt B0.get_unsolved_spaces st.idx).2) ∈ B0.get_unsolved_spaces.drop st.idx
      from usAt_mem_drop B0.get_unsolved_spaces st.idx st.idx (le_refl _) hguard)]
  obtain ⟨hW9, hWv, hWval, hWsol, hWclue⟩ := hW
  unfold ContextValidAt
  intro hmem
  unfold contextInvalid at hmem
  rw [List.mem_append, List.mem_append] at hmem
  rcases hmem with (hrow | hcol) | hnon
  · obtain ⟨c2, hc2, hLe, hWnz⟩ := mem_nonzero_row _ _ _ hrow
    have hLnz : (levelBoard B0.get_unsolved_spaces st st.idx).cell
        (usAt B0.get_unsolved_spaces st.idx).1 c2 ≠ 0 := by
      rw [hLe]
      exact hWnz
    have hWe := hagg _ c2 hr9 hc2 hLnz
    have hne : c2 ≠ (usAt B0.get_unsolved_spaces st.idx).2 := by
      intro he
      rw [he] at hLe
      rw [hL0] at hLe
      exact hWnz hLe.symm
    exact hne (valid_row_value_inj W hWval (usAt B0.get_unsolved_spaces st.idx).1 c2
      (usAt B0.get_unsolved_spaces st.idx).2 hr9 hc2 hc9
      (by rw [← hWe]; exact hLnz) (by rw [← hWe, hLe]))
  · obtain ⟨r2, hr2, hLe, hWnz⟩ := mem_nonzero_column _ _ _ hcol
    have hLnz : (levelBoard B0.get_unsolved_spaces st st.idx).cell r2
        (usAt B0.get_unsolved_spaces st.idx).2 ≠ 0 := by
      rw [hLe]
      exact hWnz
    have hWe := hagg r2 _ hr2 hc9 hLnz
    have hne : r2 ≠ (usAt B0.get_unsolved_spaces st.idx).1 := by
      intro he
      rw [he] at hLe
      rw [hL0] at hLe
      exact hWnz hLe.symm
    exact hne (valid_column_value_inj W hWval (usAt B0.get_unsolved_spaces st.idx).2 r2
      (usAt B0.get_unsolved_spaces st.idx).1 hc9 hr2 hr9
      (by rw [← hWe]; exact hLnz) (by rw [← hWe, hLe]))
  · obtain ⟨p, hp, hLe, hWnz⟩ := mem_nonzero_nonet _ _ _ hnon
    have hK9 := nonetIndexOf_lt _ hr9 _ hc9
    obtain ⟨hrb, hcb⟩ := nonetStart_add_lt _ hK9 p hp
    have hLnz : (levelBoard B0.get_unsolved_spaces st st.idx).cell
        ((nonetStart (nonetIndexOf (usAt B0.get_unsolved_spaces st.idx).1
          (usAt B0.get_unsolved_spaces st.idx).2)).1 + p / 3)
        ((nonetStart (nonetIndexOf (usAt B0.get_unsolved_spaces st.idx).1
          (usAt B0.get_unsolved_spaces st.idx).2)).2 + p % 3) ≠ 0 := by
      rw [hLe]
      exact hWnz
    have hWe := hagg _ _ hrb hcb hLnz
    have hkk := (nonet_coord_mp _ hrb _ hcb _ hK9 p hp ⟨rfl, rfl⟩).1
    have hnepair : ¬((nonetStart (nonetIndexOf (usAt B0.get_unsolved_spaces st.idx).1
          (usAt B0.get_unsolved_spaces st.idx).2)).1 + p / 3 =
            (usAt B0.get_unsolved_spaces st.idx).1 ∧
        (nonetStart (nonetIndexOf (usAt B0.get_unsolved_spaces st.idx).1
          (usAt B0.get_unsolved_spaces st.idx).2)).2 + p % 3 =
            (usAt B0.get_unsolved_spaces st.idx).2) := by
      intro hee
      obtain ⟨he1, he2⟩ := hee
      rw [he1, he2] at hLe
      rw [hL0] at hLe
      exact hWnz hLe.symm
    have hinj := valid_nonet_value_inj W hWval _ _
      (usAt B0.get_unsolved_spaces st.idx).1 (usAt B0.get_unsolved_spaces st.idx).2
      hrb hcb hr9 hc9 hkk.symm
      (by rw [← hWe]; exact hLnz) (by rw [← hWe, hLe])
    exact hnepair ⟨hinj.1, hinj.2⟩

/-! ## Preservation of the bookkeeping invariant -/

/-- AttemptedOK carries over to a state with the same attempted record at j
and the same level-j context. -/
theorem attemptedOK_transfer (B0 : SudokuBoard) (st st2 : SearchState) (j : Nat)
    (hattj : st2.attempted (usAt B0.get_unsolved_spaces j) =
      st.attempted (usAt B0.get_unsolved_spaces j))
    (hctx : ∀ v, ContextValidAt B0.get_unsolved_spaces st2 j v ↔
      ContextValidAt B0.get_unsolved_spaces st j v)
    (hAO : AttemptedOK B0.get_unsolved_spaces st j) :
    AttemptedOK B0.get_unsolved_spaces st2 j := by
  obtain ⟨h1, h2⟩ := hAO
  constructor
  · intro v hv
    rw [hattj] at hv
    obtain ⟨ha, hb, hc⟩ := h1 v hv
    exact ⟨ha, hb, (hctx v).mpr hc⟩
  · intro v hv u hu1 huv hcu
    rw [hattj] at hv ⊢
    exact h2 v hv u hu1 huv ((hctx u).mp hcu)

/-- The bookkeeping invariant of the backtracking search is preserved by one
iteration of the loop body. -/
theorem searchInv_preserved (B0 : SudokuBoard) (st st2 : SearchState)
    (hinv : SearchInv B0 B0.get_unsolved_spaces st)
    (hguard : st.idx < B0.get_unsolved_spaces.length)
    (hstep : solveStep B0.get_unsolved_spaces st = .next st2) :
    SearchInv B0 B0.get_unsolved_spaces st2 := by
  obtain ⟨hloop, hatt, hpl, hclr⟩ := hinv
  have hloop2 := loopInv_preserved B0 st st2 hloop hguard hstep
  set us := B0.get_unsolved_spaces with hus
  have hnodup : us.Nodup := nodup_get_unsolved_spaces B0
  have husne : ∀ j, j < us.length → j ≠ st.idx → usAt us j ≠ usAt us st.idx :=
    fun j hj hne => nodup_getD_ne us hnodup j st.idx hj hguard hne (0, 0)
  have h9 : st.board.Is9x9 := hloop.2.1
  have h92 : st2.board.Is9x9 := hloop2.2.1
  have hr9 := (usAt_facts B0 st.idx hguard).1
  have hc9 := (usAt_facts B0 st.idx hguard).2.1
  have hsp : stepSpace us st = usAt us st.idx := rfl
  have hctxz := contextInvalid_stepZeroed B0 st hloop hguard
  have hz9 : (stepZeroed us st).Is9x9 := is9x9_setCell _ h9 _ _ _ hr9
  cases hhead : (stepValid us st).head? with
  | some v =>
    unfold solveStep at hstep
    rw [hhead] at hstep
    injection hstep with hstep
    have hb2 : st2.board = (stepZeroed us st).setCell (stepSpace us st).1
        (stepSpace us st).2 v := by rw [← hstep]
    have ha2 : ∀ p, st2.attempted p = if p = stepSpace us st
        then st.attempted (stepSpace us st) ++ [v] else st.attempted p := by
      intro p
      rw [← hstep]
    have hi2 : st2.idx = st.idx + 1 := by rw [← hstep]
    obtain ⟨hv1, hvle, hvatt, hvctx⟩ := stepValid_head_facts us st v hhead
    have hvCV : ContextValidAt us st st.idx v := by
      unfold ContextValidAt
      rw [← hctxz]
      rw [hsp] at hvctx
      exact hvctx
    have hbcell : ∀ r c, (r, c) ≠ usAt us st.idx →
        st2.board.cell r c = st.board.cell r c := by
      intro r c hne
      rw [hb2, cell_setCell_ne (stepZeroed us st) (stepSpace us st).1
        (stepSpace us st).2 v r c (fun he => hne he)]
      exact cell_setCell_ne st.board (stepSpace us st).1 (stepSpace us st).2 0 r c
        (fun he => hne he)
    have hcellv : st2.board.cell (usAt us st.idx).1 (usAt us st.idx).2 = v := by
      rw [hb2]
      exact cell_setCell_self _ hz9 _ _ _ hr9 hc9
    have hctxiff : ∀ j, j ≤ st.idx → ∀ w,
        ContextValidAt us st2 j w ↔ ContextValidAt us st j w := by
      intro j hj w
      have hjlen : j < us.length := by omega
      apply contextValidAt_congr B0 st st2 j h9 h92 hjlen
      intro r c hr hc hnot
      exact hbcell r c (fun he => hnot (by
        rw [he]
        exact usAt_mem_drop us j st.idx hj hguard))
    unfold SearchInv
    refine ⟨hloop2, ?_, ?_, ?_⟩
    · intro j hj hjl
      rw [hi2] at hj
      rcases eq_or_lt_of_le hj with rfl | hlt
      · constructor
        · intro w hw
          rw [ha2, if_neg (show ¬(usAt us (st.idx + 1) = stepSpace us st) from
            fun he => husne (st.idx + 1) hjl (by omega) he),
            hclr (st.idx + 1) (by omega) hjl] at hw
          cases hw
        · intro w hw u hu1 huw hcu
          rw [ha2, if_neg (show ¬(usAt us (st.idx + 1) = stepSpace us st) from
            fun he => husne (st.idx + 1) hjl (by omega) he),
            hclr (st.idx + 1) (by omega) hjl] at hw
          cases hw
      · have hjle : j ≤ st.idx := by omega
        rcases eq_or_lt_of_le hjle with rfl | hltj
        · have hattj : st2.attempted (usAt us st.idx) =
              st.attempted (usAt us st.idx) ++ [v] := by
            rw [ha2, if_pos (show usAt us st.idx = stepSpace us st from rfl)]
            rfl
          constructor
          · intro w hw
            rw [hattj] at hw
            rcases List.mem_append.mp hw with hw1 | hw2
            · obtain ⟨ha, hb, hc⟩ := (hatt st.idx (le_refl _) hguard).1 w hw1
              exact ⟨ha, hb, (hctxiff st.idx (le_refl _) w).mpr hc⟩
            · have hwv : w = v := by simpa using hw2
              subst hwv
              exact ⟨hv1, hvle, (hctxiff st.idx (le_refl _) w).mpr hvCV⟩
          · intro w hw u hu1 huw hcu
            rw [hattj] at hw ⊢
            have hcuSt : ContextValidAt us st st.idx u :=
              (hctxiff st.idx (le_refl _) u).mp hcu
            rcases List.mem_append.mp hw with hw1 | hw2
            · exact List.mem_append.mpr (Or.inl
                ((hatt st.idx (le_refl _) hguard).2 w hw1 u hu1 huw hcuSt))
            · have hwv : w = v := by simpa using hw2
              subst hwv
              have hu9 : u ≤ 9 := by omega
              have humem := stepValid_head_min us st w hhead u hu1 hu9 huw
              unfold stepInvalid at humem
              rcases List.mem_append.mp humem with hua | huc
              · exact List.mem_append.mpr (Or.inl hua)
              · exfalso
                rw [hsp] at huc
                rw [hctxz] at huc
                exact hcuSt huc
        · have hattj : st2.attempted (usAt us j) = st.attempted (usAt us j) := by
            rw [ha2, if_neg (show ¬(usAt us j = stepSpace us st) from
              fun he => husne j (by omega) (by omega) he)]
          exact attemptedOK_transfer B0 st st2 j hattj (hctxiff j hjle) (hatt j hjle hjl)
    · intro j hj
      rw [hi2] at hj
      rcases eq_or_lt_of_le (Nat.lt_succ_iff.mp hj) with rfl | hltj
      · have hattj : st2.attempted (usAt us st.idx) =
            st.attempted (usAt us st.idx) ++ [v] := by
          rw [ha2, if_pos (show usAt us st.idx = stepSpace us st from rfl)]
          rfl
        have hmax : ∀ u ∈ st.attempted (usAt us st.idx), u ≤ v := by
          intro u hu
          by_contra hgt
          push_neg at hgt
          obtain ⟨hu1, hu9, huCV⟩ := (hatt st.idx (le_refl _) hguard).1 u hu
          have hvin := (hatt st.idx (le_refl _) hguard).2 u hu v hv1 hgt hvCV
          exact hvatt hvin
        constructor
        · rw [hattj, hcellv]
          exact List.mem_append.mpr (Or.inr (List.mem_singleton.mpr rfl))
        · intro u hu
          rw [hattj] at hu
          rw [hcellv]
          rcases List.mem_append.mp hu with hu1 | hu2
          · exact hmax u hu1
          · have huv : u = v := by simpa using hu2
            omega
      · have hattj : st2.attempted (usAt us j) = st.attempted (usAt us j) := by
          rw [ha2, if_neg (show ¬(usAt us j = stepSpace us st) from
            fun he => husne j (by omega) (by omega) he)]
        have hcellj : st2.board.cell (usAt us j).1 (usAt us j).2 =
            st.board.cell (usAt us j).1 (usAt us j).2 :=
          hbcell _ _ (fun he => husne j (by omega) (by omega) he)
        obtain ⟨hm1, hm2⟩ := hpl j hltj
        constructor
        · rw [hattj, hcellj]
          exact hm1
        · intro u hu
          rw [hattj] at hu
          rw [hcellj]
          exact hm2 u hu
    · intro j hj hjl
      rw [hi2] at hj
      rw [ha2, if_neg (show ¬(usAt us j = stepSpace us st) from
        fun he => husne j hjl (by omega) he)]
      exact hclr j (by omega) hjl
  | none =>
    unfold solveStep at hstep
    rw [hhead] at hstep
    have hne0 : st.idx ≠ 0 := by
      intro h0
      rw [h0] at hstep
      cases hstep
    rw [show st.idx = (st.idx - 1) + 1 from by omega] at hstep
    injection hstep with hstep
    have hb2 : st2.board = stepZeroed us st := by rw [← hstep]
    have ha2 : ∀ p, st2.attempted p = if p = stepSpace us st then []
        else st.attempted p := by
      intro p
      rw [← hstep]
    have hi2 : st2.idx = st.idx - 1 := by rw [← hstep]
    have hbcell : ∀ r c, (r, c) ≠ usAt us st.idx →
        st2.board.cell r c = st.board.cell r c := by
      intro r c hne
      rw [hb2]
      exact cell_setCell_ne st.board (stepSpace us st).1 (stepSpace us st).2 0 r c
        (fun he => hne he)
    have hctxiff : ∀ j, j ≤ st.idx → ∀ w,
        ContextValidAt us st2 j w ↔ ContextValidAt us st j w := by
      intro j hj w
      have hjlen : j < us.length := by omega
      apply contextValidAt_congr B0 st st2 j h9 h92 hjlen
      intro r c hr hc hnot
      exact hbcell r c (fun he => hnot (by
        rw [he]
        exact usAt_mem_drop us j st.idx hj hguard))
    unfold SearchInv
    refine ⟨hloop2, ?_, ?_, ?_⟩
    · intro j hj hjl
      rw [hi2] at hj
      have hattj : st2.attempted (usAt us j) = st.attempted (usAt us j) := by
        rw [ha2, if_neg (show ¬(usAt us j = stepSpace us st) from
          fun he => husne j hjl (by omega) he)]
      exact attemptedOK_transfer B0 st st2 j hattj (hctxiff j (by omega))
        (hatt j (by omega) hjl)
    · intro j hj
      rw [hi2] at hj
      have hjlen : j < us.length := by omega
      have hattj : st2.attempted (usAt us j) = st.attempted (usAt us j) := by
        rw [ha2, if_neg (show ¬(usAt us j = stepSpace us st) from
          fun he => husne j hjlen (by omega) he)]
      have hcellj : st2.board.cell (usAt us j).1 (usAt us j).2 =
          st.board.cell (usAt us j).1 (usAt us j).2 :=
        hbcell _ _ (fun he => husne j hjlen (by omega) he)
      obtain ⟨hm1, hm2⟩ := hpl j (by omega)
      constructor
      · rw [hattj, hcellj]
        exact hm1
      · intro u hu
        rw [hattj] at hu
        rw [hcellj]
        exact hm2 u hu
    · intro j hj hjl
      rw [hi2] at hj
      rcases eq_or_ne j st.idx with rfl | hne
      · rw [ha2, if_pos (show usAt us st.idx = stepSpace us st from rfl)]
      · rw [ha2, if_neg (show ¬(usAt us j = stepSpace us st) from
          fun he => husne j hjl hne he)]
        exact hclr j (by omega) hjl

/-- The bookkeeping invariant holds on entry to the loop. -/
theorem searchInv_initial (B0 : SudokuBoard) (h9 : B0.Is9x9) (hv : B0.ValuesLe9)
    (hval : B0.all_spaces_valid = true) :
    SearchInv B0 B0.get_unsolved_spaces (initialState B0) := by
  refine ⟨loopInv_initial B0 h9 hv hval, ?_, ?_, ?_⟩
  · intro j hj hjl
    constructor
    · intro w hw
      cases hw
    · intro w hw u hu1 huw hcu
      cases hw
  · intro j hj
    have hj0 : j < 0 := hj
    omega
  · intro j hj hjl
    rfl

/-! ## The search never passes an existing solution -/

/-- On entry to the loop nothing has been placed or rejected, so any
solution trivially dominates. -/
theorem dominates_initial (W B0 : SudokuBoard) :
    Dominates W B0.get_unsolved_spaces (initialState B0) := by
  right
  constructor
  · intro k hk
    have hk0 : k < 0 := hk
    omega
  · intro hlen u hu
    cases hu

/-- When the placements so far match the solution W and every rejected value
at the cursor is below W's value there, the candidate scan cannot come up
empty: W's value itself survives the filter. -/
theorem prefix_match_has_candidate (B0 W : SudokuBoard) (st : SearchState)
    (hW : ExtendsClues B0 W)
    (hloop : LoopInv B0 B0.get_unsolved_spaces st)
    (hguard : st.idx < B0.get_unsolved_spaces.length)
    (hag : ∀ k, k < st.idx →
      W.cell (usAt B0.get_unsolved_spaces k).1 (usAt B0.get_unsolved_spaces k).2 =
        st.board.cell (usAt B0.get_unsolved_spaces k).1
          (usAt B0.get_unsolved_spaces k).2)
    (hrejv : ∀ u ∈ st.attempted (usAt B0.get_unsolved_spaces st.idx),
      u < W.cell (usAt B0.get_unsolved_spaces st.idx).1
        (usAt B0.get_unsolved_spaces st.idx).2) :
    (stepValid B0.get_unsolved_spaces st).head? ≠ none := by
  intro hhead
  set us := B0.get_unsolved_spaces with hus
  have hr9 := (usAt_facts B0 st.idx hguard).1
  have hc9 := (usAt_facts B0 st.idx hguard).2.1
  have hsp : stepSpace us st = usAt us st.idx := rfl
  have hctxz := contextInvalid_stepZeroed B0 st hloop hguard
  have hW0 : W.cell (usAt us st.idx).1 (usAt us st.idx).2 ≠ 0 :=
    (all_spaces_solved_iff W hW.1).mp hW.2.2.2.1 _ hr9 _ hc9
  have hW9c : W.cell (usAt us st.idx).1 (usAt us st.idx).2 ≤ 9 :=
    valuesLe9_cell W hW.1 hW.2.1 _ _ hr9 hc9
  have hWCV : ContextValidAt us st st.idx
      (W.cell (usAt us st.idx).1 (usAt us st.idx).2) :=
    solution_not_forbidden B0 W st hW hloop hguard hag
  have hWnotatt : W.cell (usAt us st.idx).1 (usAt us st.idx).2 ∉
      st.attempted (usAt us st.idx) := fun hmem => lt_irrefl _ (hrejv _ hmem)
  have hW1 : 1 ≤ W.cell (usAt us st.idx).1 (usAt us st.idx).2 := by omega
  have hWmem := stepValid_none_forbidden us st hhead _ hW1 hW9c
  unfold stepInvalid at hWmem
  rcases List.mem_append.mp hWmem with hma | hmc
  · exact hWnotatt hma
  · rw [hsp] at hmc
    rw [hctxz] at hmc
    exact hWCV hmc

/-- Dominates together with the bookkeeping invariant is preserved by one
iteration of the loop body. -/
theorem fullInv_preserved (B0 W : SudokuBoard) (st st2 : SearchState)
    (hW : ExtendsClues B0 W)
    (hinv : FullInv B0 W B0.get_unsolved_spaces st)
    (hguard : st.idx < B0.get_unsolved_spaces.length)
    (hstep : solveStep B0.get_unsolved_spaces st = .next st2) :
    FullInv B0 W B0.get_unsolved_spaces st2 := by
  obtain ⟨hsearch, hdom⟩ := hinv
  have hsearch2 := searchInv_preserved B0 st st2 hsearch hguard hstep
  refine ⟨hsearch2, ?_⟩
  set us := B0.get_unsolved_spaces with hus
  obtain ⟨hloop, hatt, hpl, hclr⟩ := hsearch
  have hnodup : us.Nodup := nodup_get_unsolved_spaces B0
  have husne : ∀ j, j < us.length → j ≠ st.idx → usAt us j ≠ usAt us st.idx :=
    fun j hj hne => nodup_getD_ne us hnodup j st.idx hj hguard hne (0, 0)
  have h9 : st.board.Is9x9 := hloop.2.1
  have hr9 := (usAt_facts B0 st.idx hguard).1
  have hc9 := (usAt_facts B0 st.idx hguard).2.1
  have hsp : stepSpace us st = usAt us st.idx := rfl
  have hctxz := contextInvalid_stepZeroed B0 st hloop hguard
  have hW0 : W.cell (usAt us st.idx).1 (usAt us st.idx).2 ≠ 0 :=
    (all_spaces_solved_iff W hW.1).mp hW.2.2.2.1 _ hr9 _ hc9
  have hW9c : W.cell (usAt us st.idx).1 (usAt us st.idx).2 ≤ 9 :=
    valuesLe9_cell W hW.1 hW.2.1 _ _ hr9 hc9
  cases hhead : (stepValid us st).head? with
  | some v =>
    unfold solveStep at hstep
    rw [hhead] at hstep
    injection hstep with hstep
    have hb2 : st2.board = (stepZeroed us st).setCell (stepSpace us st).1
        (stepSpace us st).2 v := by rw [← hstep]
    have ha2 : ∀ p, st2.attempted p = if p = stepSpace us st
        then st.attempted (stepSpace us st) ++ [v] else st.attempted p := by
      intro p
      rw [← hstep]
    have hi2 : st2.idx = st.idx + 1 := by rw [← hstep]
    obtain ⟨hv1, hvle, hvatt, hvctx⟩ := stepValid_head_facts us st v hhead
    have hz9 : (stepZeroed us st).Is9x9 := is9x9_setCell _ h9 _ _ _ hr9
    have hbcell : ∀ r c, (r, c) ≠ usAt us st.idx →
        st2.board.cell r c = st.board.cell r c := by
      intro r c hne
      rw [hb2, cell_setCell_ne (stepZeroed us st) (stepSpace us st).1
        (stepSpace us st).2 v r c (fun he => hne he)]
      exact cell_setCell_ne st.board (stepSpace us st).1 (stepSpace us st).2 0 r c
        (fun he => hne he)
    have hcellv : st2.board.cell (usAt us st.idx).1 (usAt us st.idx).2 = v := by
      rw [hb2]
      exact cell_setCell_self _ hz9 _ _ _ hr9 hc9
    rcases hdom with ⟨j, hj, hag, hlt⟩ | ⟨hag, hrej⟩
    · left
      refine ⟨j, by rw [hi2]; omega, ?_, ?_⟩
      · intro k hk
        rw [hbcell (usAt us k).1 (usAt us k).2
          (fun he => husne k (by omega) (by omega) he)]
        exact hag k hk
      · rw [hbcell (usAt us j).1 (usAt us j).2
          (fun he => husne j (by omega) (by omega) he)]
        exact hlt
    · have hrejv := hrej hguard
      have hWCV : ContextValidAt us st st.idx
          (W.cell (usAt us st.idx).1 (usAt us st.idx).2) :=
        solution_not_forbidden B0 W st hW hloop hguard hag
      have hvW : v ≤ W.cell (usAt us st.idx).1 (usAt us st.idx).2 := by
        by_contra hgt
        push_neg at hgt
        have hWnotatt : W.cell (usAt us st.idx).1 (usAt us st.idx).2 ∉
            st.attempted (usAt us st.idx) := fun hmem => lt_irrefl _ (hrejv _ hmem)
        have hWmem := stepValid_head_min us st v hhead _ (by omega) hW9c hgt
        unfold stepInvalid at hWmem
        rcases List.mem_append.mp hWmem with hma | hmc
        · exact hWnotatt hma
        · rw [hsp] at hmc
          rw [hctxz] at hmc
          exact hWCV hmc
      rcases eq_or_lt_of_le hvW with heqv | hltv
      · right
        constructor
        · intro k hk
          rw [hi2] at hk
          rcases eq_or_lt_of_le (Nat.lt_succ_iff.mp hk) with rfl | hklt
          · rw [hcellv, ← heqv]
          · rw [hbcell (usAt us k).1 (usAt us k).2
              (fun he => husne k (by omega) (by omega) he)]
            exact hag k hklt
        · intro hlen2 u hu
          rw [hi2] at hlen2
          rw [hi2] at hu
          rw [ha2, if_neg (show ¬(usAt us (st.idx + 1) = stepSpace us st) from
            fun he => husne (st.idx + 1) hlen2 (by omega) he),
            hclr (st.idx + 1) (by omega) hlen2] at hu
          cases hu
      · left
        refine ⟨st.idx, by rw [hi2]; omega, ?_, ?_⟩
        · intro k hk
          rw [hbcell (usAt us k).1 (usAt us k).2
            (fun he => husne k (by omega) (by omega) he)]
          exact hag k hk
        · rw [hcellv]
          exact hltv
  | none =>
    have hdom1 : ∃ j, j < st.idx ∧
        (∀ k, k < j → W.cell (usAt us k).1 (usAt us k).2 =
          st.board.cell (usAt us k).1 (usAt us k).2) ∧
        st.board.cell (usAt us j).1 (usAt us j).2 <
          W.cell (usAt us j).1 (usAt us j).2 := by
      rcases hdom with hd | ⟨hag, hrej⟩
      · exact hd
      · exact absurd hhead
          (prefix_match_has_candidate B0 W st hW hloop hguard hag (hrej hguard))
    obtain ⟨j, hj, hag, hlt⟩ := hdom1
    unfold solveStep at hstep
    rw [hhead] at hstep
    have hne0 : st.idx ≠ 0 := by
      intro h0
      rw [h0] at hstep
      cases hstep
    rw [show st.idx = (st.idx - 1) + 1 from by omega] at hstep
    injection hstep with hstep
    have hb2 : st2.board = stepZeroed us st := by rw [← hstep]
    have ha2 : ∀ p, st2.attempted p = if p = stepSpace us st then []
        else st.attempted p := by
      intro p
      rw [← hstep]
    have hi2 : st2.idx = st.idx - 1 := by rw [← hstep]
    have hbcell : ∀ r c, (r, c) ≠ usAt us st.idx →
        st2.board.cell r c = st.board.cell r c := by
      intro r c hne
      rw [hb2]
      exact cell_setCell_ne st.board (stepSpace us st).1 (stepSpace us st).2 0 r c
        (fun he => hne he)
    rcases eq_or_lt_of_le (show j ≤ st.idx - 1 from by omega) with rfl | hji
    · right
      constructor
      · intro k hk
        rw [hi2] at hk
        rw [hbcell (usAt us k).1 (usAt us k).2
          (fun he => husne k (by omega) (by omega) he)]
        exact hag k hk
      · intro hlen2 u hu
        rw [hi2] at hlen2 hu ⊢
        rw [ha2, if_neg (show ¬(usAt us (st.idx - 1) = stepSpace us st) from
          fun he => husne (st.idx - 1) hlen2 (by omega) he)] at hu
        have hm2 := (hpl (st.idx - 1) (by omega)).2 u hu
        omega
    · left
      refine ⟨j, by rw [hi2]; omega, ?_, ?_⟩
      · intro k hk
        rw [hbcell (usAt us k).1 (usAt us k).2
          (fun he => husne k (by omega) (by omega) he)]
        exact hag k hk
      · rw [hbcell (usAt us j).1 (usAt us j).2
          (fun he => husne j (by omega) (by omega) he)]
        exact hlt

/-- With a solution ahead of it, the loop body never takes the backtrack
branch at cursor 0: every guarded step produces a successor state. -/
theorem step_not_underflow (B0 W : SudokuBoard) (st : SearchState)
    (hW : ExtendsClues B0 W)
    (hinv : FullInv B0 W B0.get_unsolved_spaces st)
    (hguard : st.idx < B0.get_unsolved_spaces.length) :
    ∃ st2, solveStep B0.get_unsolved_spaces st = .next st2 := by
  obtain ⟨⟨hloop, hatt, hpl, hclr⟩, hdom⟩ := hinv
  cases hs : solveStep B0.get_unsolved_spaces st with
  | next st2 => exact ⟨st2, rfl⟩
  | underflow =>
    exfalso
    unfold solveStep at hs
    cases hhead : (stepValid B0.get_unsolved_spaces st).head? with
    | some v =>
      rw [hhead] at hs
      cases hs
    | none =>
      rw [hhead] at hs
      cases hidx : st.idx with
      | succ i =>
        rw [hidx] at hs
        cases hs
      | zero =>
        rcases hdom with ⟨j, hj, hag, hlt⟩ | ⟨hag, hrej⟩
        · omega
        · exact prefix_match_has_candidate B0 W st hW hloop hguard hag
            (hrej hguard) hhead

/-! ## The progress measure of the search -/

theorem vecVal_succ (n : Nat) (f : Nat → Nat) :
    vecVal (n + 1) f = vecVal n f * 11 + f n := by
  unfold vecVal
  rw [List.range_succ, List.foldl_append]
  rfl

theorem vecVal_congr (n : Nat) (f g : Nat → Nat) (h : ∀ j, j < n → f j = g j) :
    vecVal n f = vecVal n g := by
  induction n with
  | zero => rfl
  | succ m ih =>
    rw [vecVal_succ, vecVal_succ, ih (fun j hj => h j (by omega)), h m (by omega)]

theorem vecVal_lt_pow (n : Nat) (f : Nat → Nat) (h : ∀ j, j < n → f j ≤ 10) :
    vecVal n f < 11 ^ n := by
  induction n with
  | zero => exact Nat.zero_lt_one
  | succ m ih =>
    rw [vecVal_succ, pow_succ]
    have h1 : vecVal m f < 11 ^ m := ih (fun j hj => h j (by omega))
    have h2 : f m ≤ 10 := h m (by omega)
    omega

theorem vecVal_lt_of_lex (n : Nat) (f g : Nat → Nat) (i : Nat)
    (hlt : f i < g i) (hag : ∀ j, j < i → f j = g j) :
    (∀ j, j < n → f j ≤ 10) → i < n → vecVal n f < vecVal n g := by
  induction n with
  | zero =>
    intro hf hi
    omega
  | succ m ih =>
    intro hf hi
    rw [vecVal_succ, vecVal_succ]
    rcases eq_or_lt_of_le (Nat.lt_succ_iff.mp hi) with heq | him
    · have hpre : vecVal m f = vecVal m g :=
        vecVal_congr m f g (fun j hj => hag j (by omega))
      have hfg : f m < g m := by
        rw [← heq]
        exact hlt
      rw [hpre]
      omega
    · have h1 := ih (fun j hj => hf j (by omega)) him
      have h2 : f m ≤ 10 := hf m (by omega)
      omega

/-- Every entry of the progress vector is at most 10. -/
theorem gammaAt_le (B0 : SudokuBoard) (st : SearchState)
    (hinv : SearchInv B0 B0.get_unsolved_spaces st) :
    ∀ j, j < B0.get_unsolved_spaces.length →
      gammaAt B0.get_unsolved_spaces st j ≤ 10 := by
  intro j hj
  obtain ⟨hloop, hatt, hpl, hclr⟩ := hinv
  unfold gammaAt
  by_cases h1 : j < st.idx
  · rw [if_pos h1]
    exact le_trans (valuesLe9_cell st.board hloop.2.1 hloop.2.2.1 _ _
      (usAt_facts B0 j hj).1 (usAt_facts B0 j hj).2.1) (by omega)
  · rw [if_neg h1]
    by_cases h2 : j = st.idx
    · rw [if_pos h2]
      refine le_trans (maxAtt_le _ 9 ?_) (by omega)
      intro u hu
      exact ((hatt j (by omega) hj).1 u hu).2.1
    · rw [if_neg h2]

/-- Each loop iteration strictly increases the progress measure. -/
theorem gammaVal_lt_step (B0 : SudokuBoard) (st st2 : SearchState)
    (hinv : SearchInv B0 B0.get_unsolved_spaces st)
    (hguard : st.idx < B0.get_unsolved_spaces.length)
    (hstep : solveStep B0.get_unsolved_spaces st = .next st2) :
    gammaVal B0.get_unsolved_spaces st < gammaVal B0.get_unsolved_spaces st2 := by
  have hbound := gammaAt_le B0 st hinv
  set us := B0.get_unsolved_spaces with hus
  obtain ⟨hloop, hatt, hpl, hclr⟩ := hinv
  have hnodup : us.Nodup := nodup_get_unsolved_spaces B0
  have husne : ∀ j, j < us.length → j ≠ st.idx → usAt us j ≠ usAt us st.idx :=
    fun j hj hne => nodup_getD_ne us hnodup j st.idx hj hguard hne (0, 0)
  have h9 : st.board.Is9x9 := hloop.2.1
  have hr9 := (usAt_facts B0 st.idx hguard).1
  have hc9 := (usAt_facts B0 st.idx hguard).2.1
  have hsp : stepSpace us st = usAt us st.idx := rfl
  have hctxz := contextInvalid_stepZeroed B0 st hloop hguard
  cases hhead : (stepValid us st).head? with
  | some v =>
    unfold solveStep at hstep
    rw [hhead] at hstep
    injection hstep with hstep
    have hb2 : st2.board = (stepZeroed us st).setCell (stepSpace us st).1
        (stepSpace us st).2 v := by rw [← hstep]
    have hi2 : st2.idx = st.idx + 1 := by rw [← hstep]
    obtain ⟨hv1, hvle, hvatt, hvctx⟩ := stepValid_head_facts us st v hhead
    have hvCV : ContextValidAt us st st.idx v := by
      unfold ContextValidAt
      rw [← hctxz]
      rw [hsp] at hvctx
      exact hvctx
    have hz9 : (stepZeroed us st).Is9x9 := is9x9_setCell _ h9 _ _ _ hr9
    have hbcell : ∀ r c, (r, c) ≠ usAt us st.idx →
        st2.board.cell r c = st.board.cell r c := by
      intro r c hne
      rw [hb2, cell_setCell_ne (stepZeroed us st) (stepSpace us st).1
        (stepSpace us st).2 v r c (fun he => hne he)]
      exact cell_setCell_ne st.board (stepSpace us st).1 (stepSpace us st).2 0 r c
        (fun he => hne he)
    have hcellv : st2.board.cell (usAt us st.idx).1 (usAt us st.idx).2 = v := by
      rw [hb2]
      exact cell_setCell_self _ hz9 _ _ _ hr9 hc9
    have hmaxlt : ∀ u ∈ st.attempted (usAt us st.idx), u < v := by
      intro u hu
      rcases Nat.lt_or_ge u v with h | h
      · exact h
      · exfalso
        rcases eq_or_lt_of_le h with heq | hgt
        · rw [← heq] at hu
          exact hvatt hu
        · have hvin := (hatt st.idx (le_refl _) hguard).2 u hu v hv1 hgt hvCV
          exact hvatt hvin
    have hag : ∀ j, j < st.idx → gammaAt us st j = gammaAt us st2 j := by
      intro j hj
      unfold gammaAt
      rw [if_pos hj, if_pos (show j < st2.idx from by omega)]
      exact (hbcell (usAt us j).1 (usAt us j).2
        (fun he => husne j (by omega) (by omega) he)).symm
    have hlt : gammaAt us st st.idx < gammaAt us st2 st.idx := by
      unfold gammaAt
      rw [if_neg (lt_irrefl st.idx), if_pos (show st.idx = st.idx from rfl),
        if_pos (show st.idx < st2.idx from by omega), hcellv]
      exact maxAtt_lt _ v (by omega) hmaxlt
    exact vecVal_lt_of_lex us.length (gammaAt us st) (gammaAt us st2) st.idx
      hlt hag hbound hguard
  | none =>
    unfold solveStep at hstep
    rw [hhead] at hstep
    have hne0 : st.idx ≠ 0 := by
      intro h0
      rw [h0] at hstep
      cases hstep
    rw [show st.idx = (st.idx - 1) + 1 from by omega] at hstep
    injection hstep with hstep
    have hb2 : st2.board = stepZeroed us st := by rw [← hstep]
    have ha2 : ∀ p, st2.attempted p = if p = stepSpace us st then []
        else st.attempted p := by
      intro p
      rw [← hstep]
    have hi2 : st2.idx = st.idx - 1 := by rw [← hstep]
    have hbcell : ∀ r c, (r, c) ≠ usAt us st.idx →
        st2.board.cell r c = st.board.cell r c := by
      intro r c hne
      rw [hb2]
      exact cell_setCell_ne st.board (stepSpace us st).1 (stepSpace us st).2 0 r c
        (fun he => hne he)
    have hag : ∀ j, j < st.idx → gammaAt us st j = gammaAt us st2 j := by
      intro j hj
      unfold gammaAt
      rw [if_pos hj]
      rcases eq_or_lt_of_le (show j ≤ st.idx - 1 from by omega) with heq | hjlt
      · rw [if_neg (show ¬(j < st2.idx) from by omega),
          if_pos (show j = st2.idx from by omega)]
        have hattj : st2.attempted (usAt us j) = st.attempted (usAt us j) := by
          rw [ha2, if_neg (show ¬(usAt us j = stepSpace us st) from
            fun he => husne j (by omega) (by omega) he)]
        rw [hattj]
        obtain ⟨hm1, hm2⟩ := hpl j hj
        exact (maxAtt_eq_of_mem_max _ _ hm1 hm2).symm
      · rw [if_pos (show j < st2.idx from by omega)]
        exact (hbcell (usAt us j).1 (usAt us j).2
          (fun he => husne j (by omega) (by omega) he)).symm
    have hlt : gammaAt us st st.idx < gammaAt us st2 st.idx := by
      unfold gammaAt
      rw [if_neg (lt_irrefl st.idx), if_pos (show st.idx = st.idx from rfl),
        if_neg (show ¬(st.idx < st2.idx) from by omega),
        if_neg (show ¬(st.idx = st2.idx) from by omega)]
      have hmax9 : maxAtt (st.attempted (usAt us st.idx)) ≤ 9 := by
        apply maxAtt_le
        intro u hu
        exact ((hatt st.idx (le_refl _) hguard).1 u hu).2.1
      omega
    exact vecVal_lt_of_lex us.length (gammaAt us st) (gammaAt us st2) st.idx
      hlt hag hbound hguard

/-! ## Reachability and the loop runs to completion -/

/-- A guarded step in front of a reachability chain. -/
theorem reaches_head (us : List (Nat × Nat)) (st1 st2 st3 : SearchState)
    (hg : st1.idx < us.length) (hs : solveStep us st1 = .next st2)
    (hre : Reaches us st2 st3) : Reaches us st1 st3 := by
  induction hre with
  | refl => exact Reaches.step st1 st2 Reaches.refl hg hs
  | step s2 s3 hre2 hg2 hs2 ih => exact Reaches.step s2 s3 ih hg2 hs2

/-- The full invariant holds at every reachable loop-head state. -/
theorem fullInv_reaches (B0 W : SudokuBoard) (st : SearchState)
    (hW : ExtendsClues B0 W)
    (h0 : FullInv B0 W B0.get_unsolved_spaces (initialState B0))
    (hre : Reaches B0.get_unsolved_spaces (initialState B0) st) :
    FullInv B0 W B0.get_unsolved_spaces st := by
  induction hre with
  | refl => exact h0
  | step s2 s3 hre2 hg hs ih => exact fullInv_preserved B0 W s2 s3 hW ih hg hs

/-- With a solution ahead the loop can never report the usize underflow. -/
theorem solveLoop_no_underflow (B0 W : SudokuBoard) (hW : ExtendsClues B0 W) :
    ∀ fuel st, FullInv B0 W B0.get_unsolved_spaces st →
      solveLoop B0.get_unsolved_spaces fuel st ≠ some .underflow := by
  intro fuel
  induction fuel with
  | zero =>
    intro st hinv
    unfold solveLoop
    by_cases hguard : st.idx < B0.get_unsolved_spaces.length
    · rw [if_pos hguard]
      intro hcon
      cases hcon
    · rw [if_neg hguard]
      intro hcon
      injection hcon with hcon
      cases hcon
  | succ fl ih =>
    intro st hinv
    unfold solveLoop
    by_cases hguard : st.idx < B0.get_unsolved_spaces.length
    · rw [if_pos hguard]
      obtain ⟨st2, hstep⟩ := step_not_underflow B0 W st hW hinv hguard
      rw [hstep]
      exact ih st2 (fullInv_preserved B0 W st st2 hW hinv hguard hstep)
    · rw [if_neg hguard]
      intro hcon
      injection hcon with hcon
      cases hcon

/-- With a solution ahead, fuel covering the measure bound drives the loop
to its exit: the cursor reaches unsolved_spaces.len() at a reachable state
whose board is returned as the solved outcome. -/
theorem solveLoop_completes (B0 W : SudokuBoard) (hW : ExtendsClues B0 W) :
    ∀ fuel st, FullInv B0 W B0.get_unsolved_spaces st →
      11 ^ B0.get_unsolved_spaces.length ≤
        fuel + gammaVal B0.get_unsolved_spaces st →
      ∃ stf, Reaches B0.get_unsolved_spaces st stf ∧
        stf.idx = B0.get_unsolved_spaces.length ∧
        solveLoop B0.get_unsolved_spaces fuel st = some (.solved stf.board) := by
  intro fuel
  induction fuel with
  | zero =>
    intro st hinv hfuel
    by_cases hguard : st.idx < B0.get_unsolved_spaces.length
    · exfalso
      have hb := vecVal_lt_pow B0.get_unsolved_spaces.length
        (gammaAt B0.get_unsolved_spaces st) (gammaAt_le B0 st hinv.1)
      unfold gammaVal at hfuel
      omega
    · have hle : st.idx ≤ B0.get_unsolved_spaces.length := hinv.1.1.1
      refine ⟨st, Reaches.refl, by omega, ?_⟩
      unfold solveLoop
      rw [if_neg hguard]
  | succ fl ih =>
    intro st hinv hfuel
    by_cases hguard : st.idx < B0.get_unsolved_spaces.length
    · obtain ⟨st2, hstep⟩ := step_not_underflow B0 W st hW hinv hguard
      have hinv2 := fullInv_preserved B0 W st st2 hW hinv hguard hstep
      have hgam := gammaVal_lt_step B0 st st2 hinv.1 hguard hstep
      have hfuel2 : 11 ^ B0.get_unsolved_spaces.length ≤
          fl + gammaVal B0.get_unsolved_spaces st2 := by omega
      obtain ⟨stf, hre, hidx, hl⟩ := ih st2 hinv2 hfuel2
      refine ⟨stf, reaches_head _ st st2 stf hguard hstep hre, hidx, ?_⟩
      unfold solveLoop
      rw [if_pos hguard]
      rw [hstep]
      exact hl
    · have hle : st.idx ≤ B0.get_unsolved_spaces.length := hinv.1.1.1
      refine ⟨st, Reaches.refl, by omega, ?_⟩
      unfold solveLoop
      rw [if_neg hguard]

/-! ## Claims C4 and C5: underflow safety and termination -/

/-- The fully solved fixture is (trivially) a legal completion of itself. -/
theorem extendsClues_full : ExtendsClues fullBoard fullBoard :=
  ⟨by decide, by decide, rfl, rfl, fun r c hr hc h0 => rfl⟩

/-- C4: backtrack-underflow safety — for every starting board built by
SudokuBoard::new, accepted by SudokuSolver::new, and admitting at least one
legal completion W, the cursor unsolved_spaces_index stays within
[0, unsolved_spaces.len()] at every loop-head state solve() can reach, every
guarded iteration of the loop body produces a successor state (so the
backtrack branch is never taken with the cursor at 0), and the loop never
returns the usize-underflow outcome, whatever the fuel. -/
theorem C4_no_backtrack_underflow (cfg : List (List Nat)) (b : SudokuBoard)
    (s : SudokuSolver) (W : SudokuBoard)
    (hnew : SudokuBoard.new cfg = .ok b)
    (hsnew : SudokuSolver.new b = .ok s)
    (hW : ExtendsClues b W) :
    (∀ st, Reaches s.unsolved_spaces (initialState s.board) st →
      st.idx ≤ s.unsolved_spaces.length ∧
      (st.idx < s.unsolved_spaces.length →
        ∃ st2, solveStep s.unsolved_spaces st = .next st2)) ∧
    (∀ fuel, solveLoop s.unsolved_spaces fuel (initialState s.board) ≠
      some .underflow) := by
  obtain ⟨hcfg, h9, hle⟩ := new_ok_props cfg b hnew
  obtain ⟨hval, hsb, hsu, hsc⟩ := solver_new_ok_props b s hsnew
  rw [hsb, hsu]
  have h0 : FullInv b W b.get_unsolved_spaces (initialState b) :=
    ⟨searchInv_initial b h9 hle hval, dominates_initial W b⟩
  constructor
  · intro st hre
    have hfi := fullInv_reaches b W st hW h0 hre
    refine ⟨hfi.1.1.1, ?_⟩
    intro hguard
    exact step_not_underflow b W st hW hfi hguard
  · intro fuel
    exact solveLoop_no_underflow b W hW fuel (initialState b) h0

/-- Witness for C4 at the fully solved fixture (its own completion). -/
theorem C4_no_backtrack_underflow_witness :
    SudokuBoard.new fullCfg = .ok fullBoard ∧
    SudokuSolver.new fullBoard = .ok fullSolver ∧
    ExtendsClues fullBoard fullBoard ∧
    (∀ fuel, solveLoop fullSolver.unsolved_spaces fuel
      (initialState fullSolver.board) ≠ some .underflow) :=
  ⟨rfl, rfl, extendsClues_full,
   (C4_no_backtrack_underflow fullCfg fullBoard fullSolver fullBoard
     rfl rfl extendsClues_full).2⟩

/-- C5: termination — for every starting board built by SudokuBoard::new,
accepted by SudokuSolver::new and admitting at least one legal completion W,
the backtracking while-loop of solve() performs finitely many iterations:
within 11 ^ unsolved_spaces.len() iterations it reaches a state whose cursor
equals unsolved_spaces.len() and returns that state's board, and solve()
returns a copy of that board and caches it. -/
theorem C5_solve_terminates (cfg : List (List Nat)) (b : SudokuBoard)
    (s : SudokuSolver) (W : SudokuBoard)
    (hnew : SudokuBoard.new cfg = .ok b)
    (hsnew : SudokuSolver.new b = .ok s)
    (hW : ExtendsClues b W) :
    ∃ stf, Reaches s.unsolved_spaces (initialState s.board) stf ∧
      stf.idx = s.unsolved_spaces.length ∧
      solveLoop s.unsolved_spaces (11 ^ s.unsolved_spaces.length)
        (initialState s.board) = some (.solved stf.board) ∧
      s.solve (11 ^ s.unsolved_spaces.length) =
        some (.solved (SudokuBoard.copy stf.board),
          { s with solved_board := some stf.board }) := by
  obtain ⟨hcfg, h9, hle⟩ := new_ok_props cfg b hnew
  obtain ⟨hval, hsb, hsu, hsc⟩ := solver_new_ok_props b s hsnew
  have h0 : FullInv b W b.get_unsolved_spaces (initialState b) :=
    ⟨searchInv_initial b h9 hle hval, dominates_initial W b⟩
  obtain ⟨stf, hre, hidx, hl⟩ := solveLoop_completes b W hW
    (11 ^ b.get_unsolved_spaces.length) (initialState b) h0 (Nat.le_add_right _ _)
  refine ⟨stf, ?_, ?_, ?_, ?_⟩
  · rw [hsb, hsu]
    exact hre
  · rw [hsu]
    exact hidx
  · rw [hsb, hsu]
    exact hl
  · unfold SudokuSolver.solve
    rw [hsc, hsb, hsu, hl]

/-- Witness for C5 at the fully solved fixture (its own completion). -/
theorem C5_solve_terminates_witness :
    SudokuBoard.new fullCfg = .ok fullBoard ∧
    SudokuSolver.new fullBoard = .ok fullSolver ∧
    ExtendsClues fullBoard fullBoard ∧
    (∃ stf, Reaches fullSolver.unsolved_spaces (initialState fullSolver.board) stf ∧
      stf.idx = fullSolver.unsolved_spaces.length ∧
      solveLoop fullSolver.unsolved_spaces (11 ^ fullSolver.unsolved_spaces.length)
        (initialState fullSolver.board) = some (.solved stf.board) ∧
      fullSolver.solve (11 ^ fullSolver.unsolved_spaces.length) =
        some (.solved (SudokuBoard.copy stf.board),
          { fullSolver with solved_board := some stf.board })) :=
  ⟨rfl, rfl, extendsClues_full,
   C5_solve_terminates fullCfg fullBoard fullSolver fullBoard
     rfl rfl extendsClues_full⟩
